import Mathlib

/-!
# go-jwt: a shallow embedding of `jwt.go`

Go strings and byte slices are finite sequences of bytes; they are modelled by
`List (Fin 256)`.  The functions of `jwt.go` (`Encode`, `Decode`,
`verifySignature`, `hmacSign`, `rSplit`, `addPlusSignsToBase64`) are translated
one by one.  The functions of the Go standard library they call
(`strings.Split`, `strings.Count`, `strings.ReplaceAll`, `strings.Join`,
`base64.URLEncoding`, `crypto/hmac`, `crypto/sha256`, `crypto/sha512`,
`encoding/json` on `map[string]string`) are modelled from their documented
behaviour; `encoding/json` on the caller's payload, whose type the caller
chooses, is a parameter.
-/

namespace GoJwt

/-- A byte. -/
abbrev Byte := Fin 256

/-- A Go `string` or `[]byte`: a finite sequence of bytes. -/
abbrev Bytes := List Byte

/-- The bytes of an ASCII string literal of the source. -/
def lit (s : String) : Bytes := s.toList.map (fun c => Fin.ofNat c.toNat)

/-- The byte `byte(v)` of an unsigned integer. -/
def toByte (v : Nat) : Byte := Fin.ofNat v

/-- The byte `'.'`. -/
def dot : Byte := 46

/-- The byte `'='`. -/
def eqSign : Byte := 61

/-! ## package `unicode/utf8` -/

/-- Model of `utf8.DecodeRune(p)`: the first rune of `p` and its width in bytes;
`(0xFFFD, 1)` when the encoding is invalid and `(0xFFFD, 0)` when `p` is
empty. -/
def decodeRune : Bytes → Nat × Nat
  | [] => (0xFFFD, 0)
  | p0 :: rest =>
    let c0 := p0.val
    if c0 < 0x80 then (c0, 1)
    else if c0 < 0xC2 ∨ 0xF4 < c0 then (0xFFFD, 1)
    else
      let lo := if c0 = 0xE0 then 0xA0 else if c0 = 0xF0 then 0x90 else 0x80
      let hi := if c0 = 0xED then 0x9F else if c0 = 0xF4 then 0x8F else 0xBF
      match rest with
      | [] => (0xFFFD, 1)
      | p1 :: rest1 =>
        let c1 := p1.val
        if c1 < lo ∨ hi < c1 then (0xFFFD, 1)
        else if c0 < 0xE0 then ((c0 &&& 0x1F) <<< 6 ||| (c1 &&& 0x3F), 2)
        else
          match rest1 with
          | [] => (0xFFFD, 1)
          | p2 :: rest2 =>
            let c2 := p2.val
            if c2 < 0x80 ∨ 0xBF < c2 then (0xFFFD, 1)
            else if c0 < 0xF0 then
              ((c0 &&& 0x0F) <<< 12 ||| (c1 &&& 0x3F) <<< 6 ||| (c2 &&& 0x3F), 3)
            else
              match rest2 with
              | [] => (0xFFFD, 1)
              | p3 :: _ =>
                let c3 := p3.val
                if c3 < 0x80 ∨ 0xBF < c3 then (0xFFFD, 1)
                else ((c0 &&& 0x07) <<< 18 ||| (c1 &&& 0x3F) <<< 12 |||
                  (c2 &&& 0x3F) <<< 6 ||| (c3 &&& 0x3F), 4)

/-- The bytes written by `utf8.EncodeRune(p, r)`; a surrogate and a value above
`0x10FFFF` are written as `U+FFFD`. -/
def encodeRune (r : Nat) : Bytes :=
  if r < 0x80 then [toByte r]
  else if r < 0x800 then [toByte (0xC0 ||| r >>> 6), toByte (0x80 ||| (r &&& 0x3F))]
  else if 0x10FFFF < r ∨ (0xD800 ≤ r ∧ r ≤ 0xDFFF) then [0xEF, 0xBF, 0xBD]
  else if r < 0x10000 then
    [toByte (0xE0 ||| r >>> 12), toByte (0x80 ||| (r >>> 6 &&& 0x3F)),
      toByte (0x80 ||| (r &&& 0x3F))]
  else
    [toByte (0xF0 ||| r >>> 18), toByte (0x80 ||| (r >>> 12 &&& 0x3F)),
      toByte (0x80 ||| (r >>> 6 &&& 0x3F)), toByte (0x80 ||| (r &&& 0x3F))]

/-- The UTF-8 sequences of `s`, an invalid byte being a sequence of its own
(`explode` of package `strings`).  `skip` counts the bytes of the current
sequence that are still to be passed over. -/
def explode : Bytes → Nat → List Bytes
  | [], _ => []
  | _ :: s, skip + 1 => explode s skip
  | a :: s, 0 =>
    let size := (decodeRune (a :: s)).2
    (a :: s).take size :: explode s (size - 1)

/-! ## package `strings` -/

/-- Model of `strings.HasPrefix(s, p)`. -/
def hasPrefix : Bytes → Bytes → Bool
  | _, [] => true
  | [], _ :: _ => false
  | a :: s, b :: p => a == b && hasPrefix s p

/-- Worker of `stringsSplit` for a non-empty separator.  `skip` counts the bytes
of a separator just matched that are still to be passed over; `cur` holds,
reversed, the bytes of the part being read. -/
def splitAux (sep : Bytes) : Bytes → Nat → Bytes → List Bytes
  | [], _, cur => [cur.reverse]
  | _ :: s, skip + 1, cur => splitAux sep s skip cur
  | a :: s, 0, cur =>
    if hasPrefix (a :: s) sep then cur.reverse :: splitAux sep s (sep.length - 1) []
    else splitAux sep s 0 (a :: cur)

/-- Model of `strings.Split(s, sep)`: the parts of `s` between the non-overlapping
occurrences of `sep`, found from the left; for the empty separator, the UTF-8
sequences of `s`. -/
def stringsSplit (s sep : Bytes) : List Bytes :=
  if sep = [] then explode s 0 else splitAux sep s 0 []

/-- Worker of `stringsCount` for a non-empty substring. -/
def countAux (sub : Bytes) : Bytes → Nat → Nat
  | [], _ => 0
  | _ :: s, skip + 1 => countAux sub s skip
  | a :: s, 0 =>
    if hasPrefix (a :: s) sub then countAux sub s (sub.length - 1) + 1
    else countAux sub s 0

/-- Model of `strings.Count(s, substr)`: the number of non-overlapping occurrences of
`substr` in `s`; for the empty substring, the number of runes of `s` plus
one. -/
def stringsCount (s sub : Bytes) : Nat :=
  if sub = [] then (explode s 0).length + 1 else countAux sub s 0

/-- Worker of `stringsReplaceAll` for a non-empty `old`. -/
def replaceAux (old new : Bytes) : Bytes → Nat → Bytes
  | [], _ => []
  | _ :: s, skip + 1 => replaceAux old new s skip
  | a :: s, 0 =>
    if hasPrefix (a :: s) old then new ++ replaceAux old new s (old.length - 1)
    else a :: replaceAux old new s 0

/-- Model of `strings.ReplaceAll(s, old, new)`: every non-overlapping occurrence of `old`
replaced by `new`; the empty `old` matches at the beginning of `s` and after
each UTF-8 sequence. -/
def stringsReplaceAll (s old new : Bytes) : Bytes :=
  if old = [] then new ++ ((explode s 0).map (fun r => r ++ new)).flatten
  else replaceAux old new s 0

/-- Model of `strings.Join(elems, sep)`. -/
def stringsJoin : List Bytes → Bytes → Bytes
  | [], _ => []
  | [a], _ => a
  | a :: b :: rest, sep => a ++ sep ++ stringsJoin (b :: rest) sep

/-! ## `rSplit` and `addPlusSignsToBase64` (`jwt.go`) -/

/-- The state of the loop of `rSplit`: `result`, `added`, `tempStr`. -/
structure RSplitState where
  result : List Bytes
  added : Nat
  tempStr : Bytes

/-- One iteration of `for i, part := range parts` in `rSplit`. -/
def rSplitStep (sep : Bytes) (n : Int) (st : RSplitState) (i : Nat) (part : Bytes) :
    RSplitState :=
  if (i : Int) - 1 < n then
    if st.tempStr = [] then { st with tempStr := part }
    else { st with tempStr := st.tempStr ++ sep ++ part }
  else
    if st.added = 0 then
      { st with result := (st.result ++ [st.tempStr]) ++ [part], added := st.added + 1 }
    else
      { st with result := st.result ++ [part], added := st.added + 1 }

/-- The loop of `rSplit` over `parts`, whose first element has index `i`. -/
def rSplitLoop (sep : Bytes) (n : Int) : List Bytes → Nat → RSplitState → RSplitState
  | [], _, st => st
  | part :: rest, i, st => rSplitLoop sep n rest (i + 1) (rSplitStep sep n st i part)

/-- The source `rSplit(s, sep, n)` of `jwt.go`. -/
def rSplit (s sep : Bytes) (n : Int) : List Bytes :=
  let parts := stringsSplit s sep
  if parts.length > 1 ∧ n > 0 then
    if n ≥ (parts.length : Int) - 1 then parts
    else (rSplitLoop sep n parts 0 ⟨[], 0, []⟩).result
  else [s]

/-- The loop `for i := 0; i < (4-rem); i++ { data = data + "=" }`, run `k` times. -/
def appendEq : Nat → Bytes → Bytes
  | 0, data => data
  | k + 1, data => appendEq k (data ++ [eqSign])

/-- The source `addPlusSignsToBase64(data)` of `jwt.go`. -/
def addPlusSignsToBase64 (data : Bytes) : Bytes :=
  let rem := data.length % 4
  if rem > 0 then appendEq (4 - rem) data else data

/-! ## package `encoding/base64`: `base64.URLEncoding` -/

/-- The alphabet of `base64.URLEncoding` (RFC 4648, section 5). -/
def encodeURL : Bytes :=
  lit "ABCDEFGHIJKLMNOPQRSTUVWXYZabcdefghijklmnopqrstuvwxyz0123456789-_"

/-- The table lookup `enc.encode[v]`. -/
def encChar (v : Nat) : Byte := encodeURL.getD v 0

/-- The table lookup `enc.decodeMap[c]`: the 6-bit value of an alphabet
character, `none` where Go's table holds `0xff`. -/
def decodeMap (c : Byte) : Option Nat :=
  let i := encodeURL.indexOf c
  if i < 64 then some i else none

/-- A character of the alphabet of `base64.URLEncoding`. -/
def B64Char (c : Byte) : Prop := (decodeMap c).isSome = true

instance (c : Byte) : Decidable (B64Char c) := by unfold B64Char; infer_instance

/-- Model of `base64.URLEncoding.EncodeToString(src)`: three bytes give four characters;
a last group of one or two bytes is padded with `=`. -/
def encodeToString : Bytes → Bytes
  | [] => []
  | [a] =>
    let val := a.val <<< 16
    [encChar (val >>> 18 &&& 0x3F), encChar (val >>> 12 &&& 0x3F), eqSign, eqSign]
  | [a, b] =>
    let val := a.val <<< 16 ||| b.val <<< 8
    [encChar (val >>> 18 &&& 0x3F), encChar (val >>> 12 &&& 0x3F),
      encChar (val >>> 6 &&& 0x3F), eqSign]
  | a :: b :: c :: rest =>
    let val := a.val <<< 16 ||| b.val <<< 8 ||| c.val
    encChar (val >>> 18 &&& 0x3F) :: encChar (val >>> 12 &&& 0x3F) ::
      encChar (val >>> 6 &&& 0x3F) :: encChar (val &&& 0x3F) :: encodeToString rest

/-- The quanta of `Decode`, on input without `\r` and `\n`: four alphabet
characters give three bytes; the input may end with a quantum `xx==` (one byte)
or `xxx=` (two bytes); the unused low bits of the last character are not
checked (the encoding is not strict).  Everything else is a
`CorruptInputError`. -/
def decodeQuanta : Bytes → Option Bytes
  | [] => some []
  | a :: b :: c :: d :: rest =>
    match decodeMap a, decodeMap b with
    | some x, some y =>
      match decodeMap c, decodeMap d with
      | some z, some w =>
        let val := x <<< 18 ||| y <<< 12 ||| z <<< 6 ||| w
        match decodeQuanta rest with
        | some out => some (toByte (val >>> 16) :: toByte (val >>> 8) :: toByte val :: out)
        | none => none
      | some z, none =>
        let val := x <<< 18 ||| y <<< 12 ||| z <<< 6
        if d = eqSign ∧ rest = [] then some [toByte (val >>> 16), toByte (val >>> 8)]
        else none
      | none, _ =>
        let val := x <<< 18 ||| y <<< 12
        if c = eqSign ∧ d = eqSign ∧ rest = [] then some [toByte (val >>> 16)] else none
    | _, _ => none
  | _ => none

/-- Model of `base64.URLEncoding.DecodeString(s)`: `some` bytes when the error is nil.
"New line characters (\r and \n) are ignored." -/
def decodeString (s : Bytes) : Option Bytes :=
  decodeQuanta (s.filter (fun c => c ≠ 10 ∧ c ≠ 13))

/-! ## packages `crypto/sha256` and `crypto/sha512` (FIPS 180-4)

Words are natural numbers below `2 ^ w`, with `w = 32` for SHA-256 and `w = 64`
for SHA-512; every addition is reduced modulo `2 ^ w`. -/

/-- The parameters that tell SHA-256 and SHA-512 apart. -/
structure Sha2 where
  /-- The word size in bits. -/
  w : Nat
  /-- The initial hash value. -/
  init : List Nat
  /-- The round constants `_K`. -/
  k : List Nat
  /-- The rotations of `Σ0`, applied to `a`. -/
  bigS0 : Nat × Nat × Nat
  /-- The rotations of `Σ1`, applied to `e`. -/
  bigS1 : Nat × Nat × Nat
  /-- The two rotations and the shift of `σ0`, applied to `w[i-15]`. -/
  smallS0 : Nat × Nat × Nat
  /-- The two rotations and the shift of `σ1`, applied to `w[i-2]`. -/
  smallS1 : Nat × Nat × Nat

/-- The constants `init0 .. init7` of `crypto/sha256`. -/
def init256 : List Nat :=
  [
    0x6a09e667, 0xbb67ae85, 0x3c6ef372, 0xa54ff53a, 0x510e527f, 0x9b05688c, 0x1f83d9ab, 0x5be0cd19
  ]

/-- The table `_K` of `crypto/sha256`. -/
def k256 : List Nat :=
  [
    0x428a2f98, 0x71374491, 0xb5c0fbcf, 0xe9b5dba5, 0x3956c25b, 0x59f111f1, 0x923f82a4, 0xab1c5ed5,
    0xd807aa98, 0x12835b01, 0x243185be, 0x550c7dc3, 0x72be5d74, 0x80deb1fe, 0x9bdc06a7, 0xc19bf174,
    0xe49b69c1, 0xefbe4786, 0x0fc19dc6, 0x240ca1cc, 0x2de92c6f, 0x4a7484aa, 0x5cb0a9dc, 0x76f988da,
    0x983e5152, 0xa831c66d, 0xb00327c8, 0xbf597fc7, 0xc6e00bf3, 0xd5a79147, 0x06ca6351, 0x14292967,
    0x27b70a85, 0x2e1b2138, 0x4d2c6dfc, 0x53380d13, 0x650a7354, 0x766a0abb, 0x81c2c92e, 0x92722c85,
    0xa2bfe8a1, 0xa81a664b, 0xc24b8b70, 0xc76c51a3, 0xd192e819, 0xd6990624, 0xf40e3585, 0x106aa070,
    0x19a4c116, 0x1e376c08, 0x2748774c, 0x34b0bcb5, 0x391c0cb3, 0x4ed8aa4a, 0x5b9cca4f, 0x682e6ff3,
    0x748f82ee, 0x78a5636f, 0x84c87814, 0x8cc70208, 0x90befffa, 0xa4506ceb, 0xbef9a3f7, 0xc67178f2
  ]

/-- The constants `init0 .. init7` of `crypto/sha512`. -/
def init512 : List Nat :=
  [
    0x6a09e667f3bcc908, 0xbb67ae8584caa73b, 0x3c6ef372fe94f82b, 0xa54ff53a5f1d36f1,
    0x510e527fade682d1, 0x9b05688c2b3e6c1f, 0x1f83d9abfb41bd6b, 0x5be0cd19137e2179
  ]

/-- The table `_K` of `crypto/sha512`. -/
def k512 : List Nat :=
  [
    0x428a2f98d728ae22, 0x7137449123ef65cd, 0xb5c0fbcfec4d3b2f, 0xe9b5dba58189dbbc,
    0x3956c25bf348b538, 0x59f111f1b605d019, 0x923f82a4af194f9b, 0xab1c5ed5da6d8118,
    0xd807aa98a3030242, 0x12835b0145706fbe, 0x243185be4ee4b28c, 0x550c7dc3d5ffb4e2,
    0x72be5d74f27b896f, 0x80deb1fe3b1696b1, 0x9bdc06a725c71235, 0xc19bf174cf692694,
    0xe49b69c19ef14ad2, 0xefbe4786384f25e3, 0x0fc19dc68b8cd5b5, 0x240ca1cc77ac9c65,
    0x2de92c6f592b0275, 0x4a7484aa6ea6e483, 0x5cb0a9dcbd41fbd4, 0x76f988da831153b5,
    0x983e5152ee66dfab, 0xa831c66d2db43210, 0xb00327c898fb213f, 0xbf597fc7beef0ee4,
    0xc6e00bf33da88fc2, 0xd5a79147930aa725, 0x06ca6351e003826f, 0x142929670a0e6e70,
    0x27b70a8546d22ffc, 0x2e1b21385c26c926, 0x4d2c6dfc5ac42aed, 0x53380d139d95b3df,
    0x650a73548baf63de, 0x766a0abb3c77b2a8, 0x81c2c92e47edaee6, 0x92722c851482353b,
    0xa2bfe8a14cf10364, 0xa81a664bbc423001, 0xc24b8b70d0f89791, 0xc76c51a30654be30,
    0xd192e819d6ef5218, 0xd69906245565a910, 0xf40e35855771202a, 0x106aa07032bbd1b8,
    0x19a4c116b8d2d0c8, 0x1e376c085141ab53, 0x2748774cdf8eeb99, 0x34b0bcb5e19b48a8,
    0x391c0cb3c5c95a63, 0x4ed8aa4ae3418acb, 0x5b9cca4f7763e373, 0x682e6ff3d6b2b8a3,
    0x748f82ee5defb2fc, 0x78a5636f43172f60, 0x84c87814a1f0ab72, 0x8cc702081a6439ec,
    0x90befffa23631e28, 0xa4506cebde82bde9, 0xbef9a3f7b2c67915, 0xc67178f2e372532b,
    0xca273eceea26619c, 0xd186b8c721c0c207, 0xeada7dd6cde0eb1e, 0xf57d4f7fee6ed178,
    0x06f067aa72176fba, 0x0a637dc5a2c898a6, 0x113f9804bef90dae, 0x1b710b35131c471b,
    0x28db77f523047d84, 0x32caab7b40c72493, 0x3c9ebe0a15c9bebc, 0x431d67c49c100d4c,
    0x4cc5d4becb3e42b6, 0x597f299cfc657e2a, 0x5fcb6fab3ad6faec, 0x6c44198c4a475817
  ]

/-- SHA-256. -/
def p256 : Sha2 := ⟨32, init256, k256, (2, 13, 22), (6, 11, 25), (7, 18, 3), (17, 19, 10)⟩

/-- SHA-512. -/
def p512 : Sha2 := ⟨64, init512, k512, (28, 34, 39), (14, 18, 41), (1, 8, 7), (19, 61, 6)⟩

/-- Model of `bits.RotateLeft(x, -n)` on `w`-bit words. -/
def rotr (w x n : Nat) : Nat := (x >>> n ||| x <<< (w - n)) % 2 ^ w

/-- The working variables `a .. h`, also used for the hash value `h0 .. h7`. -/
structure Sha2State where
  a : Nat
  b : Nat
  c : Nat
  d : Nat
  e : Nat
  f : Nat
  g : Nat
  h : Nat

/-- The hash value held in a list of eight words. -/
def Sha2State.ofList (l : List Nat) : Sha2State :=
  ⟨l.getD 0 0, l.getD 1 0, l.getD 2 0, l.getD 3 0, l.getD 4 0, l.getD 5 0, l.getD 6 0,
    l.getD 7 0⟩

/-- One round of the block function, with round constant `kt` and schedule word
`wt`. -/
def sha2Round (p : Sha2) (s : Sha2State) (kt wt : Nat) : Sha2State :=
  let m := 2 ^ p.w
  let t1 := (s.h + (rotr p.w s.e p.bigS1.1 ^^^ rotr p.w s.e p.bigS1.2.1 ^^^
    rotr p.w s.e p.bigS1.2.2) + ((s.e &&& s.f) ^^^ ((m - 1 - s.e) &&& s.g)) + kt + wt) % m
  let t2 := ((rotr p.w s.a p.bigS0.1 ^^^ rotr p.w s.a p.bigS0.2.1 ^^^
    rotr p.w s.a p.bigS0.2.2) + ((s.a &&& s.b) ^^^ (s.a &&& s.c) ^^^ (s.b &&& s.c))) % m
  ⟨(t1 + t2) % m, s.a, s.b, s.c, (s.d + t1) % m, s.e, s.f, s.g⟩

/-- The rounds of the block function over the round constants and the schedule. -/
def sha2Rounds (p : Sha2) : List Nat → List Nat → Sha2State → Sha2State
  | kt :: ks, wt :: ws, s => sha2Rounds p ks ws (sha2Round p s kt wt)
  | _, _, s => s

/-- A big-endian word. -/
def beWord (bs : Bytes) : Nat := bs.foldl (fun acc b => acc * 256 + b.val) 0

/-- The first `n` big-endian words of `size` bytes each. -/
def beWords (size : Nat) : Nat → Bytes → List Nat
  | 0, _ => []
  | n + 1, bs => beWord (bs.take size) :: beWords size n (bs.drop size)

/-- The message schedule is extended by `n` words; `rev` holds the words
computed so far, the last one first. -/
def sha2Schedule (p : Sha2) : Nat → List Nat → List Nat
  | 0, rev => rev.reverse
  | n + 1, rev =>
    let v1 := rev.getD 1 0
    let t1 := rotr p.w v1 p.smallS1.1 ^^^ rotr p.w v1 p.smallS1.2.1 ^^^ v1 >>> p.smallS1.2.2
    let v2 := rev.getD 14 0
    let t2 := rotr p.w v2 p.smallS0.1 ^^^ rotr p.w v2 p.smallS0.2.1 ^^^ v2 >>> p.smallS0.2.2
    sha2Schedule p n (((t1 + rev.getD 6 0 + t2 + rev.getD 15 0) % 2 ^ p.w) :: rev)

/-- The block function on one block of sixteen words. -/
def sha2Block (p : Sha2) (s : Sha2State) (block : Bytes) : Sha2State :=
  let m := 2 ^ p.w
  let ws := sha2Schedule p (p.k.length - 16) (beWords (p.w / 8) 16 block).reverse
  let r := sha2Rounds p p.k ws s
  ⟨(s.a + r.a) % m, (s.b + r.b) % m, (s.c + r.c) % m, (s.d + r.d) % m,
    (s.e + r.e) % m, (s.f + r.f) % m, (s.g + r.g) % m, (s.h + r.h) % m⟩

/-- The block function over `n` consecutive blocks of `2 * w` bytes. -/
def sha2Blocks (p : Sha2) : Nat → Bytes → Sha2State → Sha2State
  | 0, _, s => s
  | n + 1, bs, s => sha2Blocks p n (bs.drop (2 * p.w)) (sha2Block p s (bs.take (2 * p.w)))

/-- The `n` low bytes of `v`, the most significant first. -/
def beBytes : Nat → Nat → Bytes
  | 0, _ => []
  | n + 1, v => beBytes n (v / 256) ++ [toByte v]

/-- The padding of `checkSum`: the byte `0x80`, zero bytes up to the length
field, and the length of the message in bits. -/
def sha2Pad (p : Sha2) (len : Nat) : Bytes :=
  let chunk := 2 * p.w
  let field := p.w / 4
  let t := if len % chunk < chunk - field then chunk - field - len % chunk
    else chunk + (chunk - field) - len % chunk
  (0x80 : Byte) :: List.replicate (t - 1) (0 : Byte) ++ beBytes field (len * 8 % 2 ^ (2 * p.w))

/-- The digest of a message: `Write(msg)` then `Sum(nil)` on a new hash. -/
def sha2Sum (p : Sha2) (msg : Bytes) : Bytes :=
  let padded := msg ++ sha2Pad p msg.length
  let s := sha2Blocks p (padded.length / (2 * p.w)) padded (Sha2State.ofList p.init)
  beBytes (p.w / 8) s.a ++ beBytes (p.w / 8) s.b ++ beBytes (p.w / 8) s.c ++
    beBytes (p.w / 8) s.d ++ beBytes (p.w / 8) s.e ++ beBytes (p.w / 8) s.f ++
    beBytes (p.w / 8) s.g ++ beBytes (p.w / 8) s.h

/-- A `func() hash.Hash`: what `crypto/hmac` uses of a hash. -/
structure Hash where
  /-- The result of `BlockSize()`. -/
  blockSize : Nat
  /-- The digest of a message. -/
  sum : Bytes → Bytes

/-- The source `var HS256 = sha256.New`. -/
def HS256 : Hash := ⟨64, sha2Sum p256⟩

/-- The source `var HS512 = sha512.New`. -/
def HS512 : Hash := ⟨128, sha2Sum p512⟩

/-! ## package `crypto/hmac` (RFC 2104) -/

/-- The key block of `hmac.New`: a key longer than a block is hashed; the key
is copied into a block of zero bytes. -/
def hmacKeyBlock (h : Hash) (key : Bytes) : Bytes :=
  let key := if key.length > h.blockSize then h.sum key else key
  key ++ List.replicate (h.blockSize - key.length) (0 : Byte)

/-- The byte `b ^ x`. -/
def xorByte (x : Nat) (b : Byte) : Byte := toByte (b.val ^^^ x)

/-- Model of `mac := hmac.New(h, key); mac.Write(msg); mac.Sum(nil)`. -/
def hmacSum (h : Hash) (key msg : Bytes) : Bytes :=
  let block := hmacKeyBlock h key
  let ipad := block.map (xorByte 0x36)
  let opad := block.map (xorByte 0x5c)
  h.sum (opad ++ h.sum (ipad ++ msg))

/-- Model of `subtle.ConstantTimeCompare(x, y)`: zero when the lengths differ, otherwise
one exactly when the accumulated exclusive-or of the bytes is zero. -/
def constantTimeCompare (x y : Bytes) : Nat :=
  if x.length ≠ y.length then 0
  else
    let v := (List.zip x y).foldl (fun acc xy => acc ||| (xy.1.val ^^^ xy.2.val)) 0
    if v = 0 then 1 else 0

/-- Model of `hmac.Equal(mac1, mac2)`. -/
def hmacEqual (mac1 mac2 : Bytes) : Bool := constantTimeCompare mac1 mac2 == 1

/-! ## package `encoding/json` at type `map[string]string`

A Go `map[string]string` is modelled by an association list; an entry put at
the head overrides the entries of the same key behind it. -/

/-- A `map[string]string`. -/
abbrev StringMap := List (Bytes × Bytes)

/-- The map index expression `m[key]`: the zero value `""` when `key` is absent. -/
def StringMap.get : StringMap → Bytes → Bytes
  | [], _ => []
  | (k, v) :: m, key => if k = key then v else StringMap.get m key

/-- Model of `strings.Compare(a, b) <= 0`: the bytewise lexicographic order. -/
def bytesLe : Bytes → Bytes → Bool
  | [], _ => true
  | _ :: _, [] => false
  | a :: s, b :: t => a.val < b.val || (a.val == b.val && bytesLe s t)

/-- An entry is inserted into a list of entries sorted by key. -/
def insertSorted (e : Bytes × Bytes) : StringMap → StringMap
  | [] => [e]
  | x :: xs => if bytesLe e.1 x.1 then e :: x :: xs else x :: insertSorted e xs

/-- The entries of a map sorted by key, as `json.Marshal` writes them. -/
def sortByKey : StringMap → StringMap
  | [] => []
  | e :: m => insertSorted e (sortByKey m)

/-- The table `hex` of `encoding/json`. -/
def hexDigit (v : Nat) : Byte := (lit "0123456789abcdef").getD v 0

/-- The table `htmlSafeSet`: the ASCII bytes that `json.Marshal` writes as they
are. -/
def htmlSafe (b : Byte) : Bool :=
  0x20 ≤ b.val && b.val < 0x80 && b ≠ 34 && b ≠ 38 && b ≠ 60 && b ≠ 62 && b ≠ 92

/-- The loop of `appendString` with `escapeHTML` set; `skip` counts the bytes of
a UTF-8 sequence already written. -/
def appendStringAux : Bytes → Nat → Bytes
  | [], _ => []
  | _ :: s, skip + 1 => appendStringAux s skip
  | b :: s, 0 =>
    if b.val < 0x80 then
      if htmlSafe b then b :: appendStringAux s 0
      else if b = 92 ∨ b = 34 then 92 :: b :: appendStringAux s 0
      else if b = 8 then lit "\\b" ++ appendStringAux s 0
      else if b = 12 then lit "\\f" ++ appendStringAux s 0
      else if b = 10 then lit "\\n" ++ appendStringAux s 0
      else if b = 13 then lit "\\r" ++ appendStringAux s 0
      else if b = 9 then lit "\\t" ++ appendStringAux s 0
      else lit "\\u00" ++ [hexDigit (b.val >>> 4), hexDigit (b.val &&& 0xF)] ++
        appendStringAux s 0
    else
      let r := decodeRune (b :: s)
      if r.1 = 0xFFFD ∧ r.2 = 1 then lit "\\ufffd" ++ appendStringAux s 0
      else if r.1 = 0x2028 ∨ r.1 = 0x2029 then
        lit "\\u202" ++ [hexDigit (r.1 &&& 0xF)] ++ appendStringAux s (r.2 - 1)
      else (b :: s).take r.2 ++ appendStringAux s (r.2 - 1)

/-- Model of `appendString`: a Go string as a JSON string. -/
def appendString (src : Bytes) : Bytes := 34 :: appendStringAux src 0 ++ [34]

/-- The members of a JSON object, separated by commas. -/
def marshalMembers : StringMap → Bytes
  | [] => []
  | [(k, v)] => appendString k ++ [58] ++ appendString v
  | (k, v) :: e :: m => appendString k ++ [58] ++ appendString v ++ [44] ++ marshalMembers (e :: m)

/-- Model of `json.Marshal(m)` for a non-nil `m map[string]string`, whose error is always
nil: the entries in the order of their keys. -/
def marshalStringMap (m : StringMap) : Bytes :=
  123 :: marshalMembers (sortByKey m) ++ [125]

/-- The value of a hexadecimal digit. -/
def hexVal (c : Byte) : Option Nat :=
  if 48 ≤ c.val ∧ c.val ≤ 57 then some (c.val - 48)
  else if 97 ≤ c.val ∧ c.val ≤ 102 then some (c.val - 97 + 10)
  else if 65 ≤ c.val ∧ c.val ≤ 70 then some (c.val - 65 + 10)
  else none

/-- Model of `getu4` on the four digits that follow `\u`. -/
def hex4 (a b c d : Byte) : Option Nat :=
  match hexVal a, hexVal b, hexVal c, hexVal d with
  | some x, some y, some z, some w => some (x <<< 12 ||| y <<< 8 ||| z <<< 4 ||| w)
  | _, _, _, _ => none

/-- The places of the scan of a header. -/
inductive Phase
  | top
  | objStart
  | inKey
  | afterKey
  | beforeVal
  | inVal
  | afterVal
  | beforeKey
  | done
deriving DecidableEq

/-- The state of the scan of a header: the place, the map read so far, the key
of the member being read, the string being read, and the number of bytes
already accounted for that are still to be passed over. -/
structure HeaderScan where
  phase : Phase
  header : StringMap
  key : Bytes
  acc : Bytes
  skip : Nat

/-- JSON white space. -/
def isSpace (c : Byte) : Bool := c = 32 ∨ c = 9 ∨ c = 13 ∨ c = 10

/-- One byte `c` inside a JSON string, `rest` being the input behind it: `none`
for a syntax error, otherwise whether the string ends here, the bytes it
gains (`unquoteBytes`) and the number of bytes behind `c` used up. -/
def stringByte (c : Byte) (rest : Bytes) : Option (Bool × Bytes × Nat) :=
  if c = 34 then some (true, [], 0)
  else if c = 92 then
    match rest with
    | [] => none
    | e :: rest1 =>
      if e = 117 then
        match rest1 with
        | h1 :: h2 :: h3 :: h4 :: rest2 =>
          match hex4 h1 h2 h3 h4 with
          | none => none
          | some rr =>
            if 0xD800 ≤ rr ∧ rr < 0xE000 then
              match rest2 with
              | b :: u :: g1 :: g2 :: g3 :: g4 :: _ =>
                match hex4 g1 g2 g3 g4 with
                | some rr1 =>
                  if b = 92 ∧ u = 117 ∧ rr < 0xDC00 ∧ 0xDC00 ≤ rr1 ∧ rr1 < 0xE000 then
                    some (false,
                      encodeRune (((rr - 0xD800) <<< 10 ||| (rr1 - 0xDC00)) + 0x10000), 11)
                  else some (false, encodeRune 0xFFFD, 5)
                | none => some (false, encodeRune 0xFFFD, 5)
              | _ => some (false, encodeRune 0xFFFD, 5)
            else some (false, encodeRune rr, 5)
        | _ => none
      else if e = 34 ∨ e = 92 ∨ e = 47 then some (false, [e], 1)
      else if e = 98 then some (false, [8], 1)
      else if e = 102 then some (false, [12], 1)
      else if e = 110 then some (false, [10], 1)
      else if e = 114 then some (false, [13], 1)
      else if e = 116 then some (false, [9], 1)
      else none
  else if c.val < 0x20 then none
  else if c.val < 0x80 then some (false, [c], 0)
  else
    let r := decodeRune (c :: rest)
    some (false, encodeRune r.1, r.2 - 1)

/-- One byte of the scan of a header; `none` where `json.Unmarshal` into a
`map[string]string` returns an error (a syntax error, or a value that is
neither an object at the top nor a string or `null` in a member). -/
def scanStep (st : HeaderScan) (c : Byte) (rest : Bytes) : Option HeaderScan :=
  match st.skip with
  | k + 1 => some { st with skip := k }
  | 0 =>
    match st.phase with
    | .top =>
      if isSpace c then some st
      else if c = 123 then some { st with phase := .objStart }
      else if c = 110 ∧ hasPrefix rest (lit "ull") then some { st with phase := .done, skip := 3 }
      else none
    | .objStart =>
      if isSpace c then some st
      else if c = 125 then some { st with phase := .done }
      else if c = 34 then some { st with phase := .inKey, acc := [] }
      else none
    | .inKey =>
      match stringByte c rest with
      | none => none
      | some (true, _, _) => some { st with phase := .afterKey, key := st.acc }
      | some (false, bs, k) => some { st with acc := st.acc ++ bs, skip := k }
    | .afterKey =>
      if isSpace c then some st
      else if c = 58 then some { st with phase := .beforeVal }
      else none
    | .beforeVal =>
      if isSpace c then some st
      else if c = 34 then some { st with phase := .inVal, acc := [] }
      else if c = 110 ∧ hasPrefix rest (lit "ull") then
        some { st with phase := .afterVal, header := (st.key, []) :: st.header, skip := 3 }
      else none
    | .inVal =>
      match stringByte c rest with
      | none => none
      | some (true, _, _) =>
        some { st with phase := .afterVal, header := (st.key, st.acc) :: st.header }
      | some (false, bs, k) => some { st with acc := st.acc ++ bs, skip := k }
    | .afterVal =>
      if isSpace c then some st
      else if c = 44 then some { st with phase := .beforeKey }
      else if c = 125 then some { st with phase := .done }
      else none
    | .beforeKey =>
      if isSpace c then some st
      else if c = 34 then some { st with phase := .inKey, acc := [] }
      else none
    | .done => if isSpace c then some st else none

/-- The scan of a header over the input. -/
def scanHeader : Bytes → HeaderScan → Option HeaderScan
  | [], st => some st
  | c :: rest, st =>
    match scanStep st c rest with
    | none => none
    | some st1 => scanHeader rest st1

/-- The source `var header map[string]string; err = json.Unmarshal(data, &header)`: `some`
of the map when the error is nil (the nil map for the JSON value `null`). -/
def unmarshalStringMap (data : Bytes) : Option StringMap :=
  match scanHeader data ⟨.top, [], [], [], 0⟩ with
  | some st => if st.phase = .done ∧ st.skip = 0 then some st.header else none
  | none => none

/-! ## `jwt.go` -/

/-- The source `const tokenType = "JWT"`. -/
def tokenType : Bytes := lit "JWT"

/-- The source `var algorithms = map[string]func() hash.Hash{"HS256": HS256, "HS512": HS512}`,
with the lookup `alg, hasAlg := algorithms[name]`. -/
def algorithms (name : Bytes) : Option Hash :=
  if name = lit "HS256" then some HS256
  else if name = lit "HS512" then some HS512
  else none

/-- The values of `&jwtErrror{...}` built in `jwt.go`, one for each message. -/
inductive JwtError
  /-- Message "Invalid JWT token provided. Unable to parse it" -/
  | unableToParse
  /-- Message "Invalid JWT token provided. Empty or missing parts" -/
  | emptyOrMissingParts
  /-- Message "Invalid JWT token provided. Missing parts" -/
  | missingParts
  /-- Message "Invalid JWT token provided. Signing input missing parts" -/
  | signingInputMissingParts
  /-- Message "Invalid JWT token provided. Unable to load header data: ..." -/
  | loadHeaderData
  /-- Message "Invalid JWT token provided. Unable to unmarshal header: ..." -/
  | unmarshalHeader
  /-- Message "Invalid JWT token provided. Unable to load payload data: ..." -/
  | loadPayloadData
  /-- Message "Invalid JWT token provided. Unable to unmarshal payload: ..." -/
  | unmarshalPayload
  /-- Message "Invalid JWT token provided. Unable to load signature data: ..." -/
  | loadSignatureData
  /-- Message "Invalid JWT token provided. Signatures don't match" -/
  | signaturesDontMatch
deriving DecidableEq

/-- What a call of `Encode` does: it returns `(token, err)`, or `log.Fatalln`
ends the process. -/
inductive EncodeResult
  | ret (token : Bytes) (err : Option JwtError)
  | fatal
deriving DecidableEq

/-- The source `hmacSign(signingBytes, alg, secret)`. -/
def hmacSign (signingBytes : Bytes) (alg : Hash) (secret : Bytes) : Bytes :=
  let output := hmacSum alg secret signingBytes
  encodeToString output

/-- The source `verifySignature(signingInput, signature, algName, secret)`: `none` is the
nil error. -/
def verifySignature (signingInput signature algName secret : Bytes) : Option JwtError :=
  match algorithms algName with
  | none => some .unableToParse
  | some alg =>
    let expectedMac := hmacSum alg secret signingInput
    if !hmacEqual signature expectedMac then some .signaturesDontMatch
    else none

/-- The source `Encode(payload, secret, algorithm)`.  `marshal` is `json.Marshal` at the
type of the payload, `none` when its error is not nil.  `json.Marshal` of the
header map has no error. -/
def Encode {π : Type} (marshal : π → Option Bytes) (payload : π) (secret algorithm : Bytes) :
    EncodeResult :=
  match algorithms algorithm with
  | none => .ret [] (some .unableToParse)
  | some alg =>
    let headers : StringMap := [(lit "typ", tokenType), (lit "alg", algorithm)]
    let headersJSON := marshalStringMap headers
    match marshal payload with
    | none => .fatal
    | some payloadJSON =>
      let signingInput := stringsReplaceAll (encodeToString headersJSON) (lit "=") [] ++
        lit "." ++ stringsReplaceAll (encodeToString payloadJSON) (lit "=") []
      let signature := hmacSign signingInput alg secret
      .ret (stringsReplaceAll (stringsJoin [signingInput, signature] (lit ".")) (lit "=") [])
        none

/-- The part of `Decode` behind the two splits, from
`headerData, err := base64.URLEncoding.DecodeString(...)` to `return err`. -/
def decodeSegments {τ : Type} (unmarshal : Bytes → τ → τ × Bool)
    (signingInput headerSegment payloadSegment cryptoSegment secret : Bytes) (payload : τ) :
    Option JwtError × τ :=
  match decodeString (addPlusSignsToBase64 headerSegment) with
  | none => (some .loadHeaderData, payload)
  | some headerData =>
    match unmarshalStringMap headerData with
    | none => (some .unmarshalHeader, payload)
    | some header =>
      match decodeString (addPlusSignsToBase64 payloadSegment) with
      | none => (some .loadPayloadData, payload)
      | some payloadData =>
        let r := unmarshal payloadData payload
        if !r.2 then (some .unmarshalPayload, r.1)
        else
          match decodeString (addPlusSignsToBase64 cryptoSegment) with
          | none => (some .loadSignatureData, r.1)
          | some signature =>
            (verifySignature signingInput signature (header.get (lit "alg")) secret, r.1)

/-- The source `Decode(jwtToken, secret, payload)`: the error returned (`none` is nil) and
the value the caller's payload holds after the call.  `unmarshal data v` is
`json.Unmarshal(data, &payload)` on a payload holding `v`: the value it holds
afterwards, and whether the error is nil. -/
def Decode {τ : Type} (unmarshal : Bytes → τ → τ × Bool) (jwtToken secret : Bytes)
    (payload : τ) : Option JwtError × τ :=
  if jwtToken = [] ∨ stringsCount jwtToken (lit ".") ≠ 2 then
    (some .emptyOrMissingParts, payload)
  else
    match rSplit jwtToken (lit ".") 1 with
    | [signingInput, cryptoSegment] =>
      match stringsSplit signingInput (lit ".") with
      | [headerSegment, payloadSegment] =>
        decodeSegments unmarshal signingInput headerSegment payloadSegment cryptoSegment
          secret payload
      | _ => (some .signingInputMissingParts, payload)
    | _ => (some .missingParts, payload)

/-! ## `encoding/json` at type `bool`, a payload type for concrete runs -/

/-- The input without its leading JSON white space. -/
def trimLeft : Bytes → Bytes
  | [] => []
  | c :: s => if isSpace c then trimLeft s else c :: s

/-- The input without the JSON white space around it. -/
def trimSpace (s : Bytes) : Bytes := (trimLeft (trimLeft s).reverse).reverse

/-- Model of `json.Marshal(b)` for `b bool`. -/
def marshalBool (b : Bool) : Option Bytes := some (if b then lit "true" else lit "false")

/-- Model of `json.Marshal(s)` for `s string`: the JSON string of `s`. -/
def marshalString (s : Bytes) : Option Bytes := some (appendString s)

/-- Model of `json.Unmarshal(data, &payload)` for a payload holding a `*bool` that points
to `v`: the literals `true` and `false` are stored, `null` leaves `v` as it is,
and every other input is an error (of syntax or of type) that leaves `v` as it
is. -/
def unmarshalBool (data : Bytes) (v : Bool) : Bool × Bool :=
  let t := trimSpace data
  if t = lit "true" then (true, true)
  else if t = lit "false" then (false, true)
  else if t = lit "null" then (v, true)
  else (v, false)

/-! ## Vocabulary of the specification -/

/-- The specification's `NOPAD`: the text without its trailing `=` characters. -/
def noPad (s : Bytes) : Bytes := (s.reverse.dropWhile (fun c => c = eqSign)).reverse

/-- The specification's `header_json`: the bytes `{"alg":"<name>","typ":"JWT"}`. -/
def headerJSON (name : Bytes) : Bytes := lit "\x7b\"alg\":\"" ++ name ++ lit "\",\"typ\":\"JWT\"\x7d"

/-- The specification's `B64URL_NOPAD`. -/
def b64urlNoPad (b : Bytes) : Bytes := noPad (encodeToString b)

/-- The text `h.p`. -/
def joinDot (h p : Bytes) : Bytes := h ++ dot :: p

/-- The errors that `Decode` returns before it reaches
`json.Unmarshal(payloadData, &payload)`. -/
def BeforePayload (e : Option JwtError) : Prop :=
  e = some .emptyOrMissingParts ∨ e = some .missingParts ∨
    e = some .signingInputMissingParts ∨ e = some .loadHeaderData ∨
    e = some .unmarshalHeader ∨ e = some .loadPayloadData

/-- The number of low bits of the last character of an unpadded base64 text
that encode nothing: two for each `=` that pads the text. -/
def unusedBits (text : Bytes) : Nat := 2 * ((4 - text.length % 4) % 4)

/-- A character of the URL-safe base64 alphabet as the specification lists it:
`A`-`Z`, `a`-`z`, `0`-`9`, `-` and `_`. -/
def URLSafeChar (c : Byte) : Prop :=
  (65 ≤ c.val ∧ c.val ≤ 90) ∨ (97 ≤ c.val ∧ c.val ≤ 122) ∨ (48 ≤ c.val ∧ c.val ≤ 57) ∨
    c = 45 ∨ c = 95

instance (c : Byte) : Decidable (URLSafeChar c) := by unfold URLSafeChar; infer_instance

/-- Model of `json.Marshal(c)` for `c chan int`, a payload that cannot be
serialized: the error is an `UnsupportedTypeError`. -/
def marshalChan (_ : Unit) : Option Bytes := none

/-! # Properties

## Strings -/

theorem lit_dot : lit "." = [dot] := by decide

theorem lit_eqSign : lit "=" = [eqSign] := by decide

theorem hasPrefix_single (c a : Byte) (s : Bytes) : hasPrefix (a :: s) [c] = (a == c) := by
  simp [hasPrefix]

theorem replaceAux_single (c : Byte) (s : Bytes) :
    replaceAux [c] [] s 0 = s.filter (fun x => x ≠ c) := by
  induction s with
  | nil => simp [replaceAux]
  | cons a s ih =>
    by_cases h : a = c
    · simp [replaceAux, hasPrefix, h, ih]
    · simp [replaceAux, hasPrefix, h, ih]

/-- Removing every `=`, as `strings.ReplaceAll(s, "=", "")` does. -/
theorem stringsReplaceAll_eqSign (s : Bytes) :
    stringsReplaceAll s (lit "=") [] = s.filter (fun x => x ≠ eqSign) := by
  rw [lit_eqSign]
  simp [stringsReplaceAll, replaceAux_single]

theorem countAux_single (c : Byte) (s : Bytes) : countAux [c] s 0 = s.count c := by
  induction s with
  | nil => simp [countAux]
  | cons a s ih =>
    by_cases h : a = c
    · simp [countAux, hasPrefix, h, ih]
    · simp [countAux, hasPrefix, h, ih, List.count_cons]

theorem stringsCount_dot (s : Bytes) : stringsCount s (lit ".") = s.count dot := by
  rw [lit_dot]
  simp [stringsCount, countAux_single]

theorem splitAux_single_of_not_mem (c : Byte) (s cur : Bytes) (h : c ∉ s) :
    splitAux [c] s 0 cur = [cur.reverse ++ s] := by
  induction s generalizing cur with
  | nil => simp [splitAux]
  | cons a s ih =>
    have ha : a ≠ c := fun e => h (by simp [e])
    have hs : c ∉ s := fun e => h (by simp [e])
    simp [splitAux, hasPrefix, ha, ih _ hs]

theorem splitAux_single_append (c : Byte) (a r cur : Bytes) (h : c ∉ a) :
    splitAux [c] (a ++ c :: r) 0 cur = (cur.reverse ++ a) :: splitAux [c] r 0 [] := by
  induction a generalizing cur with
  | nil => simp [splitAux, hasPrefix]
  | cons x a ih =>
    have hx : x ≠ c := fun e => h (by simp [e])
    have hs : c ∉ a := fun e => h (by simp [e])
    simp [splitAux, hasPrefix, hx, ih _ hs]

theorem stringsSplit_dot_of_not_mem (s : Bytes) (h : dot ∉ s) :
    stringsSplit s (lit ".") = [s] := by
  rw [lit_dot]
  simp [stringsSplit, splitAux_single_of_not_mem _ _ _ h]

theorem stringsSplit_dot_two (a b : Bytes) (ha : dot ∉ a) (hb : dot ∉ b) :
    stringsSplit (a ++ dot :: b) (lit ".") = [a, b] := by
  rw [lit_dot]
  simp [stringsSplit, splitAux_single_append _ _ _ _ ha, splitAux_single_of_not_mem _ _ _ hb]

theorem stringsSplit_dot_three (a b c : Bytes) (ha : dot ∉ a) (hb : dot ∉ b) (hc : dot ∉ c) :
    stringsSplit (a ++ dot :: (b ++ dot :: c)) (lit ".") = [a, b, c] := by
  rw [lit_dot]
  simp [stringsSplit, splitAux_single_append _ _ _ _ ha, splitAux_single_append _ _ _ _ hb,
    splitAux_single_of_not_mem _ _ _ hc]

/-- A string with at least one occurrence of `c` is cut at the first one. -/
theorem exists_cut_of_count_pos (c : Byte) (s : Bytes) (n : Nat) (h : s.count c = n + 1) :
    ∃ a r, s = a ++ c :: r ∧ c ∉ a ∧ r.count c = n := by
  induction s with
  | nil => simp at h
  | cons x s ih =>
    by_cases hx : x = c
    · subst hx
      refine ⟨[], s, rfl, by simp, ?_⟩
      simpa using h
    · have h1 : s.count c = n + 1 := by
        rw [List.count_cons_of_ne (Ne.symm hx)] at h
        exact h
      obtain ⟨a, r, hs, ha, hr⟩ := ih h1
      refine ⟨x :: a, r, by simp [hs], ?_, hr⟩
      simp [ha, Ne.symm hx]

/-- A string with exactly two dots is `h.p.s` with three parts free of dots. -/
theorem exists_three_of_count_two (t : Bytes) (h : t.count dot = 2) :
    ∃ a b c, t = a ++ dot :: (b ++ dot :: c) ∧ dot ∉ a ∧ dot ∉ b ∧ dot ∉ c := by
  obtain ⟨a, r, ht, ha, hr⟩ := exists_cut_of_count_pos dot t 1 h
  obtain ⟨b, c, hr2, hb, hc⟩ := exists_cut_of_count_pos dot r 0 hr
  exact ⟨a, b, c, by rw [ht, hr2], ha, hb, List.count_eq_zero.mp hc⟩

theorem count_three (a b c : Bytes) (ha : dot ∉ a) (hb : dot ∉ b) (hc : dot ∉ c) :
    (a ++ dot :: (b ++ dot :: c)).count dot = 2 := by
  simp [List.count_append, List.count_cons, List.count_eq_zero.mpr ha,
    List.count_eq_zero.mpr hb, List.count_eq_zero.mpr hc]

/-- What `rSplit(s, ".", 1)` returns on a string with exactly two dots: the
first part is `a.b`, unless `a` is empty, when it is `b` alone. -/
theorem rSplit_three (a b c : Bytes) (ha : dot ∉ a) (hb : dot ∉ b) (hc : dot ∉ c) :
    rSplit (a ++ dot :: (b ++ dot :: c)) (lit ".") 1 =
      [if a = [] then b else a ++ dot :: b, c] := by
  unfold rSplit
  rw [stringsSplit_dot_three a b c ha hb hc, lit_dot]
  by_cases h : a = []
  · simp [rSplitLoop, rSplitStep, h]
  · simp [rSplitLoop, rSplitStep, h]

/-! ## Base64 -/

theorem decodeMap_encChar : ∀ v : Nat, v < 64 → decodeMap (encChar v) = some v := by decide

theorem encChar_getD_decodeMap :
    ∀ c : Byte, (decodeMap c).isSome = true → encChar ((decodeMap c).getD 0) = c := by
  decide!

theorem encChar_of_decodeMap (c : Byte) (v : Nat) (h : decodeMap c = some v) :
    encChar v = c := by
  have := encChar_getD_decodeMap c (by simp [h])
  simpa [h] using this

theorem decodeMap_lt (c : Byte) (v : Nat) (h : decodeMap c = some v) : v < 64 := by
  unfold decodeMap at h
  simp only at h
  split at h
  · simp at h; omega
  · simp at h

theorem b64Char_encChar (v : Nat) (h : v < 64) : B64Char (encChar v) := by
  simp [B64Char, decodeMap_encChar v h]

theorem not_b64Char_special : ¬ B64Char eqSign ∧ ¬ B64Char dot ∧ ¬ B64Char 10 ∧ ¬ B64Char 13 := by
  decide

theorem and63 (x : Nat) : x &&& 0x3F = x % 64 := Nat.and_pow_two_sub_one_eq_mod x 6

theorem or_eq_add {x y : Nat} (i : Nat) (hx : x % 2 ^ i = 0) (hy : y < 2 ^ i) :
    x ||| y = x + y := by
  have h : x = 2 ^ i * (x / 2 ^ i) := (Nat.mul_div_cancel' (Nat.dvd_of_mod_eq_zero hx)).symm
  rw [h]
  exact (Nat.mul_add_lt_is_or hy _).symm

theorem enc2_val (a b : Nat) (hb : b < 256) : a <<< 16 ||| b <<< 8 = a * 65536 + b * 256 := by
  rw [Nat.shiftLeft_eq, Nat.shiftLeft_eq]
  exact or_eq_add 16 (by omega) (by omega)

theorem enc3_val (a b c : Nat) (hb : b < 256) (hc : c < 256) :
    a <<< 16 ||| b <<< 8 ||| c = a * 65536 + b * 256 + c := by
  rw [enc2_val a b hb]
  exact or_eq_add 8 (by omega) (by omega)

theorem dec2_val (x y : Nat) (hy : y < 64) : x <<< 18 ||| y <<< 12 = x * 262144 + y * 4096 := by
  rw [Nat.shiftLeft_eq, Nat.shiftLeft_eq]
  exact or_eq_add 18 (by omega) (by omega)

theorem dec3_val (x y z : Nat) (hy : y < 64) (hz : z < 64) :
    x <<< 18 ||| y <<< 12 ||| z <<< 6 = x * 262144 + y * 4096 + z * 64 := by
  rw [dec2_val x y hy, Nat.shiftLeft_eq]
  exact or_eq_add 12 (by omega) (by omega)

theorem dec4_val (x y z w : Nat) (hy : y < 64) (hz : z < 64) (hw : w < 64) :
    x <<< 18 ||| y <<< 12 ||| z <<< 6 ||| w = x * 262144 + y * 4096 + z * 64 + w := by
  rw [dec3_val x y z hy hz]
  exact or_eq_add 6 (by omega) (by omega)

theorem toByte_val (v : Nat) : (toByte v).val = v % 256 := rfl

theorem toByte_eq (v : Nat) (a : Byte) (h : v % 256 = a.val) : toByte v = a :=
  Fin.ext (by rw [toByte_val, h])

theorem sextet_lt (v : Nat) : v &&& 0x3F < 64 := by
  rw [and63]
  omega

theorem encChar_sextet_ne_eqSign (v : Nat) : encChar (v &&& 0x3F) ≠ eqSign := by
  intro h
  have := b64Char_encChar _ (sextet_lt v)
  rw [h] at this
  exact not_b64Char_special.1 this

theorem decodeMap_eqSign : decodeMap eqSign = none := by decide

theorem appendEq_eq (k : Nat) (data : Bytes) :
    appendEq k data = data ++ List.replicate k eqSign := by
  induction k generalizing data with
  | zero => simp [appendEq]
  | succ k ih => simp [appendEq, ih, List.replicate_succ]

theorem addPlus_cons4 (a b c d : Byte) (s : Bytes) :
    addPlusSignsToBase64 (a :: b :: c :: d :: s) = a :: b :: c :: d :: addPlusSignsToBase64 s := by
  have h : (a :: b :: c :: d :: s).length % 4 = s.length % 4 := by
    simp only [List.length_cons]
    omega
  simp only [addPlusSignsToBase64, h, appendEq_eq]
  split <;> simp

/-- Every character written by the encoder is of the alphabet or is `=`. -/
theorem encodeToString_chars (b : Bytes) :
    ∀ c ∈ encodeToString b, B64Char c ∨ c = eqSign := by
  induction b using encodeToString.induct with
  | case1 => simp [encodeToString]
  | case2 a =>
    intro c hc
    simp only [encodeToString, List.mem_cons, List.mem_singleton, List.not_mem_nil,
      or_false] at hc
    rcases hc with h | h | h | h
    · exact Or.inl (h ▸ b64Char_encChar _ (sextet_lt _))
    · exact Or.inl (h ▸ b64Char_encChar _ (sextet_lt _))
    · exact Or.inr h
    · exact Or.inr h
  | case3 a b =>
    intro c hc
    simp only [encodeToString, List.mem_cons, List.mem_singleton, List.not_mem_nil,
      or_false] at hc
    rcases hc with h | h | h | h
    · exact Or.inl (h ▸ b64Char_encChar _ (sextet_lt _))
    · exact Or.inl (h ▸ b64Char_encChar _ (sextet_lt _))
    · exact Or.inl (h ▸ b64Char_encChar _ (sextet_lt _))
    · exact Or.inr h
  | case4 a b c rest ih =>
    intro x hx
    simp only [encodeToString, List.mem_cons] at hx
    rcases hx with h | h | h | h | h
    · exact Or.inl (h ▸ b64Char_encChar _ (sextet_lt _))
    · exact Or.inl (h ▸ b64Char_encChar _ (sextet_lt _))
    · exact Or.inl (h ▸ b64Char_encChar _ (sextet_lt _))
    · exact Or.inl (h ▸ b64Char_encChar _ (sextet_lt _))
    · exact ih x h

/-- Decoding inverts encoding, quantum by quantum. -/
theorem decodeQuanta_encodeToString (b : Bytes) : decodeQuanta (encodeToString b) = some b := by
  induction b using encodeToString.induct with
  | case1 => simp [encodeToString, decodeQuanta]
  | case2 a =>
    have ha := a.isLt
    simp only [encodeToString, decodeQuanta, decodeMap_encChar _ (sextet_lt _), decodeMap_eqSign,
      and_self, if_true]
    rw [dec2_val _ _ (sextet_lt _)]
    simp only [and63, Nat.shiftLeft_eq, Nat.shiftRight_eq_div_pow]
    congr 2
    exact toByte_eq _ _ (by omega)
  | case3 a b =>
    have ha := a.isLt
    have hb := b.isLt
    simp only [encodeToString, decodeQuanta, decodeMap_encChar _ (sextet_lt _), decodeMap_eqSign,
      and_self, if_true]
    rw [dec3_val _ _ _ (sextet_lt _) (sextet_lt _), enc2_val _ _ hb]
    simp only [and63, Nat.shiftRight_eq_div_pow]
    congr 2
    · exact toByte_eq _ _ (by omega)
    · congr 1
      exact toByte_eq _ _ (by omega)
  | case4 a b c rest ih =>
    have ha := a.isLt
    have hb := b.isLt
    have hc := c.isLt
    simp only [encodeToString, decodeQuanta, decodeMap_encChar _ (sextet_lt _), ih]
    rw [dec4_val _ _ _ _ (sextet_lt _) (sextet_lt _) (sextet_lt _), enc3_val _ _ _ hb hc]
    simp only [and63, Nat.shiftRight_eq_div_pow]
    congr 2
    · exact toByte_eq _ _ (by omega)
    · congr 1
      · exact toByte_eq _ _ (by omega)
      · congr 1
        exact toByte_eq _ _ (by omega)

theorem filter_newline_encodeToString (b : Bytes) :
    (encodeToString b).filter (fun c => c ≠ 10 ∧ c ≠ 13) = encodeToString b := by
  rw [List.filter_eq_self]
  intro c hc
  rcases encodeToString_chars b c hc with h | h
  · have h10 : c ≠ 10 := fun e => not_b64Char_special.2.2.1 (e ▸ h)
    have h13 : c ≠ 13 := fun e => not_b64Char_special.2.2.2 (e ▸ h)
    simp [h10, h13]
  · subst h
    decide

/-- The function `DecodeString` inverts `EncodeToString`. -/
theorem decodeString_encodeToString (b : Bytes) : decodeString (encodeToString b) = some b := by
  unfold decodeString
  rw [filter_newline_encodeToString, decodeQuanta_encodeToString]

/-- The padding taken off an encoding is put back by `addPlusSignsToBase64`. -/
theorem addPlus_filter_encodeToString (b : Bytes) :
    addPlusSignsToBase64 ((encodeToString b).filter (fun x => x ≠ eqSign)) =
      encodeToString b := by
  induction b using encodeToString.induct with
  | case1 => simp [encodeToString, addPlusSignsToBase64]
  | case2 a =>
    simp [encodeToString, addPlusSignsToBase64, appendEq, encChar_sextet_ne_eqSign,
      List.filter_cons]
  | case3 a b =>
    simp [encodeToString, addPlusSignsToBase64, appendEq, encChar_sextet_ne_eqSign,
      List.filter_cons]
  | case4 a b c rest ih =>
    simp only [encodeToString, List.filter_cons, encChar_sextet_ne_eqSign, ne_eq,
      not_false_eq_true, decide_True, if_true, addPlus_cons4, ih]

/-- An encoding without its padding holds characters of the alphabet only. -/
theorem filter_encodeToString_chars (b : Bytes) :
    ∀ c ∈ (encodeToString b).filter (fun x => x ≠ eqSign), B64Char c := by
  intro c hc
  rw [List.mem_filter] at hc
  rcases encodeToString_chars b c hc.1 with h | h
  · exact h
  · simp [h] at hc

theorem dot_not_mem_of_b64 (s : Bytes) (h : ∀ c ∈ s, B64Char c) : dot ∉ s :=
  fun hd => not_b64Char_special.2.1 (h dot hd)

theorem eqSign_not_mem_of_b64 (s : Bytes) (h : ∀ c ∈ s, B64Char c) : eqSign ∉ s :=
  fun hd => not_b64Char_special.1 (h eqSign hd)

/-! ## HMAC -/

theorem or_eq_zero_iff (x y : Nat) : x ||| y = 0 ↔ x = 0 ∧ y = 0 := by
  constructor
  · intro h
    have hb : ∀ i, x.testBit i = false ∧ y.testBit i = false := by
      intro i
      have := congrArg (fun n => Nat.testBit n i) h
      simpa using this
    exact ⟨Nat.eq_of_testBit_eq (fun i => by simp [(hb i).1]),
      Nat.eq_of_testBit_eq (fun i => by simp [(hb i).2])⟩
  · rintro ⟨rfl, rfl⟩
    rfl

theorem foldl_or_eq_zero (l : List (Byte × Byte)) (init : Nat) :
    l.foldl (fun acc xy => acc ||| (xy.1.val ^^^ xy.2.val)) init = 0 ↔
      init = 0 ∧ ∀ xy ∈ l, xy.1 = xy.2 := by
  induction l generalizing init with
  | nil => simp
  | cons p l ih =>
    simp only [List.foldl_cons, ih, or_eq_zero_iff, Nat.xor_eq_zero, List.mem_cons, forall_eq_or_imp]
    constructor
    · rintro ⟨⟨h0, hp⟩, hl⟩
      exact ⟨h0, Fin.ext hp, hl⟩
    · rintro ⟨h0, hp, hl⟩
      exact ⟨⟨h0, congrArg Fin.val hp⟩, hl⟩

theorem zip_all_eq (x y : Bytes) (hlen : x.length = y.length)
    (h : ∀ xy ∈ List.zip x y, xy.1 = xy.2) : x = y := by
  induction x generalizing y with
  | nil =>
    cases y with
    | nil => rfl
    | cons b y => simp at hlen
  | cons a x ih =>
    cases y with
    | nil => simp at hlen
    | cons b y =>
      simp only [List.zip_cons_cons, List.mem_cons, forall_eq_or_imp] at h
      simp only [List.length_cons, Nat.add_right_cancel_iff] at hlen
      rw [h.1, ih y hlen h.2]

/-- The function `hmac.Equal` is equality of byte strings. -/
theorem hmacEqual_iff (x y : Bytes) : hmacEqual x y = true ↔ x = y := by
  unfold hmacEqual constantTimeCompare
  constructor
  · intro h
    by_cases hlen : x.length = y.length
    · simp only [hlen, ne_eq, not_true_eq_false, if_false] at h
      by_cases hv : (List.zip x y).foldl (fun acc xy => acc ||| (xy.1.val ^^^ xy.2.val)) 0 = 0
      · exact zip_all_eq x y hlen ((foldl_or_eq_zero _ _).mp hv).2
      · simp [hv] at h
    · simp [hlen] at h
  · rintro rfl
    have hv : (List.zip x x).foldl (fun acc xy => acc ||| (xy.1.val ^^^ xy.2.val)) 0 = 0 := by
      rw [foldl_or_eq_zero]
      refine ⟨rfl, ?_⟩
      intro xy hxy
      have := List.of_mem_zip hxy
      induction x with
      | nil => simp at hxy
      | cons a x ih =>
        simp only [List.zip_cons_cons, List.mem_cons] at hxy
        rcases hxy with h | h
        · rw [h]
        · exact ih h (List.of_mem_zip h)
    simp [hv]

theorem beBytes_length (n v : Nat) : (beBytes n v).length = n := by
  induction n generalizing v with
  | zero => rfl
  | succ n ih => simp [beBytes, ih]

theorem sha2Sum_length (p : Sha2) (msg : Bytes) : (sha2Sum p msg).length = 8 * (p.w / 8) := by
  simp only [sha2Sum, List.length_append, beBytes_length]
  omega

/-- An HMAC-SHA256 digest has 32 bytes. -/
theorem hmacSum_HS256_length (key msg : Bytes) : (hmacSum HS256 key msg).length = 32 := by
  simp [hmacSum, HS256, sha2Sum_length, p256]

/-- An HMAC-SHA512 digest has 64 bytes. -/
theorem hmacSum_HS512_length (key msg : Bytes) : (hmacSum HS512 key msg).length = 64 := by
  simp [hmacSum, HS512, sha2Sum_length, p512]

/-! ## `Encode` and `Decode` on three segments -/

theorem algorithms_HS256 : algorithms (lit "HS256") = some HS256 := by
  simp [algorithms]

theorem algorithms_HS512 : algorithms (lit "HS512") = some HS512 := by
  have h : lit "HS512" ≠ lit "HS256" := by decide
  simp [algorithms, h]

theorem algorithms_eq_none (name : Bytes) (h1 : name ≠ lit "HS256") (h2 : name ≠ lit "HS512") :
    algorithms name = none := by
  simp [algorithms, h1, h2]

theorem algorithms_eq_some (name : Bytes) (alg : Hash) (h : algorithms name = some alg) :
    (name = lit "HS256" ∧ alg = HS256) ∨ (name = lit "HS512" ∧ alg = HS512) := by
  unfold algorithms at h
  split at h
  · left
    exact ⟨by assumption, by simpa using h.symm⟩
  · split at h
    · right
      exact ⟨by assumption, by simpa using h.symm⟩
    · simp at h

/-- The token written by `Encode` for a registered algorithm and a payload that
`json.Marshal` accepts. -/
theorem Encode_eq {π : Type} (marshal : π → Option Bytes) (payload : π)
    (secret algorithm : Bytes) (alg : Hash) (j : Bytes)
    (halg : algorithms algorithm = some alg) (hm : marshal payload = some j) :
    Encode marshal payload secret algorithm =
      .ret (joinDot (joinDot
          ((encodeToString (marshalStringMap
            [(lit "typ", tokenType), (lit "alg", algorithm)])).filter (fun x => x ≠ eqSign))
          ((encodeToString j).filter (fun x => x ≠ eqSign)))
        ((encodeToString (hmacSum alg secret (joinDot
          ((encodeToString (marshalStringMap
            [(lit "typ", tokenType), (lit "alg", algorithm)])).filter (fun x => x ≠ eqSign))
          ((encodeToString j).filter (fun x => x ≠ eqSign))))).filter (fun x => x ≠ eqSign)))
        none := by
  have hd : (decide (dot ≠ eqSign)) = true := by decide
  simp only [Encode, halg, hm, stringsReplaceAll_eqSign, stringsJoin, hmacSign, lit_dot, joinDot,
    List.filter_append, List.filter_cons, List.filter_nil, List.filter_filter, Bool.and_self, hd,
    if_true, List.append_assoc, List.singleton_append, List.cons_append, List.nil_append]

theorem Decode_of_count_ne {τ : Type} (unmarshal : Bytes → τ → τ × Bool) (t secret : Bytes)
    (out : τ) (h : t.count dot ≠ 2) :
    Decode unmarshal t secret out = (some .emptyOrMissingParts, out) := by
  simp [Decode, stringsCount_dot, h]

theorem Decode_three {τ : Type} (unmarshal : Bytes → τ → τ × Bool) (a b c secret : Bytes)
    (out : τ) (ha : dot ∉ a) (hb : dot ∉ b) (hc : dot ∉ c) (hne : a ≠ []) :
    Decode unmarshal (joinDot (joinDot a b) c) secret out =
      decodeSegments unmarshal (joinDot a b) a b c secret out := by
  have hcount := count_three a b c ha hb hc
  have hsplit := rSplit_three a b c ha hb hc
  simp only [joinDot, List.append_assoc, List.cons_append] at *
  unfold Decode
  rw [stringsCount_dot, hcount, hsplit]
  simp [hne, stringsSplit_dot_two a b ha hb]

theorem Decode_three_nil {τ : Type} (unmarshal : Bytes → τ → τ × Bool) (b c secret : Bytes)
    (out : τ) (hb : dot ∉ b) (hc : dot ∉ c) :
    Decode unmarshal (joinDot (joinDot [] b) c) secret out =
      (some .signingInputMissingParts, out) := by
  have hcount := count_three [] b c (by simp) hb hc
  have hsplit := rSplit_three [] b c (by simp) hb hc
  simp only [joinDot, List.append_assoc, List.cons_append, List.nil_append] at *
  unfold Decode
  rw [stringsCount_dot, hcount, hsplit]
  simp [stringsSplit_dot_of_not_mem b hb]

theorem dot_not_mem_segment (b : Bytes) :
    dot ∉ (encodeToString b).filter (fun x => x ≠ eqSign) :=
  dot_not_mem_of_b64 _ (filter_encodeToString_chars b)

/-- The header segment for `"HS256"`. -/
theorem header_segment_HS256 :
    (encodeToString (marshalStringMap [(lit "typ", tokenType), (lit "alg", lit "HS256")])).filter
      (fun x => x ≠ eqSign) = lit "eyJhbGciOiJIUzI1NiIsInR5cCI6IkpXVCJ9" := by
  decide!

/-- The header segment for `"HS512"`. -/
theorem header_segment_HS512 :
    (encodeToString (marshalStringMap [(lit "typ", tokenType), (lit "alg", lit "HS512")])).filter
      (fun x => x ≠ eqSign) = lit "eyJhbGciOiJIUzUxMiIsInR5cCI6IkpXVCJ9" := by
  decide!

theorem header_segment_ne_nil (A : Bytes) (hA : A = lit "HS256" ∨ A = lit "HS512") :
    (encodeToString (marshalStringMap [(lit "typ", tokenType), (lit "alg", A)])).filter
      (fun x => x ≠ eqSign) ≠ [] := by
  rcases hA with h | h
  · rw [h, header_segment_HS256]
    decide
  · rw [h, header_segment_HS512]
    decide

/-- The header written by `Encode` is read back by `Decode` with its `alg`. -/
theorem header_read_back (A : Bytes) (hA : A = lit "HS256" ∨ A = lit "HS512") :
    ∃ m, unmarshalStringMap (marshalStringMap [(lit "typ", tokenType), (lit "alg", A)]) = some m ∧
      m.get (lit "alg") = A := by
  rcases hA with h | h
  · subst h
    exact ⟨[(lit "typ", tokenType), (lit "alg", lit "HS256")], by decide!, by decide!⟩
  · subst h
    exact ⟨[(lit "typ", tokenType), (lit "alg", lit "HS512")], by decide!, by decide!⟩

theorem algorithms_isSome (A : Bytes) (hA : A = lit "HS256" ∨ A = lit "HS512") :
    ∃ alg, algorithms A = some alg := by
  rcases hA with h | h
  · exact ⟨HS256, h ▸ algorithms_HS256⟩
  · exact ⟨HS512, h ▸ algorithms_HS512⟩

/-- The function `decodeSegments` on the three segments of a token written by `Encode` under
the secret `key`, for any secret: the payload is unmarshalled, and the
signature is checked against the digest under the secret given. -/
theorem decodeSegments_encoded {τ : Type} (unmarshal : Bytes → τ → τ × Bool)
    (A secret key j : Bytes) (alg : Hash) (out : τ)
    (hA : A = lit "HS256" ∨ A = lit "HS512") (halg : algorithms A = some alg) (si : Bytes) :
    decodeSegments unmarshal si
      ((encodeToString (marshalStringMap
        [(lit "typ", tokenType), (lit "alg", A)])).filter (fun x => x ≠ eqSign))
      ((encodeToString j).filter (fun x => x ≠ eqSign))
      ((encodeToString (hmacSum alg key si)).filter (fun x => x ≠ eqSign)) secret out =
      (if (unmarshal j out).2 = true then
          (if hmacSum alg key si = hmacSum alg secret si then none
            else some JwtError.signaturesDontMatch)
        else some JwtError.unmarshalPayload, (unmarshal j out).1) := by
  obtain ⟨m, hm, hget⟩ := header_read_back A hA
  simp only [decodeSegments, addPlus_filter_encodeToString, decodeString_encodeToString, hm,
    hget, verifySignature, halg]
  cases hu : (unmarshal j out).2 with
  | false => simp
  | true =>
    by_cases h : hmacSum alg key si = hmacSum alg secret si
    · simp [h, (hmacEqual_iff _ _).mpr]
    · have : hmacEqual (hmacSum alg key si) (hmacSum alg secret si) = false := by
        rw [Bool.eq_false_iff]
        exact fun e => h ((hmacEqual_iff _ _).mp e)
      simp [h, this]

/-- C1, the claim refuted: the payload `"test"`, a string, is serialized by
`json.Marshal` and `Encode` returns a token with a nil error; `Decode` of that
token under the same secret into a `*bool` returns the error "Unable to
unmarshal payload", not nil. -/
theorem C1_counterexample :
    marshalString (lit "test") = some (lit "\"test\"") ∧
      Encode marshalString (lit "test") (lit "s3cret") (lit "HS256") =
        .ret (lit "eyJhbGciOiJIUzI1NiIsInR5cCI6IkpXVCJ9.InRlc3Qi.Sc_V-7Pq4xvoFoRAfvqw5VN4ipNGNay4ALcv7ftGbVQ")
          none ∧
      Decode unmarshalBool
        (lit "eyJhbGciOiJIUzI1NiIsInR5cCI6IkpXVCJ9.InRlc3Qi.Sc_V-7Pq4xvoFoRAfvqw5VN4ipNGNay4ALcv7ftGbVQ")
        (lit "s3cret") false = (some .unmarshalPayload, false) := by
  decide!

/-- C1, amended. Round trip: for a payload that `json.Marshal` serializes to
`j`, any secret and an algorithm among `"HS256"` and `"HS512"`, `Encode` returns
a token with a nil error, and `Decode` of that token under the same secret
hands exactly the bytes `j` to `json.Unmarshal`: it returns nil when
`json.Unmarshal` accepts `j` into the target and the error "Unable to unmarshal
payload" when it does not, and the caller's payload holds what `json.Unmarshal`
made of `j`. -/
theorem C1_round_trip {π τ : Type} (marshal : π → Option Bytes)
    (unmarshal : Bytes → τ → τ × Bool) (P : π) (S A : Bytes) (out : τ) (j : Bytes)
    (hA : A = lit "HS256" ∨ A = lit "HS512") (hm : marshal P = some j) :
    ∃ T, Encode marshal P S A = .ret T none ∧
      Decode unmarshal T S out =
        (if (unmarshal j out).2 = true then none else some .unmarshalPayload,
          (unmarshal j out).1) := by
  obtain ⟨alg, halg⟩ := algorithms_isSome A hA
  refine ⟨_, Encode_eq marshal P S A alg j halg hm, ?_⟩
  rw [Decode_three unmarshal _ _ _ S out (dot_not_mem_segment _) (dot_not_mem_segment _)
    (dot_not_mem_segment _) (header_segment_ne_nil A hA),
    decodeSegments_encoded unmarshal A S S j alg out hA halg, if_pos rfl]

/-- C1, amended, at the payload `true`, the secret `"s3cret"` and `"HS256"`, decoded
into a `*bool`. -/
theorem C1_round_trip_witness :
    marshalBool true = some (lit "true") ∧
    ∃ T, Encode marshalBool true (lit "s3cret") (lit "HS256") = .ret T none ∧
      Decode unmarshalBool T (lit "s3cret") false =
        (if (unmarshalBool (lit "true") false).2 = true then none
          else some .unmarshalPayload, (unmarshalBool (lit "true") false).1) :=
  ⟨by decide,
    C1_round_trip marshalBool unmarshalBool true (lit "s3cret") (lit "HS256") false (lit "true")
      (Or.inl rfl) (by decide)⟩

theorem verifySignature_eq_none_iff (si sig name secret : Bytes) :
    verifySignature si sig name secret = none ↔
      ∃ alg, algorithms name = some alg ∧ sig = hmacSum alg secret si := by
  unfold verifySignature
  cases halg : algorithms name with
  | none => simp
  | some alg =>
    by_cases h : sig = hmacSum alg secret si
    · simp [h, (hmacEqual_iff _ _).mpr]
    · have : hmacEqual sig (hmacSum alg secret si) = false := by
        rw [Bool.eq_false_iff]
        exact fun e => h ((hmacEqual_iff _ _).mp e)
      simp [h, this]

/-- When the part of `Decode` behind the splits returns nil. -/
theorem decodeSegments_nil_iff {τ : Type} (unmarshal : Bytes → τ → τ × Bool)
    (si h p s secret : Bytes) (out : τ) :
    (decodeSegments unmarshal si h p s secret out).1 = none ↔
      ∃ hd m pd sig alg,
        decodeString (addPlusSignsToBase64 h) = some hd ∧ unmarshalStringMap hd = some m ∧
        decodeString (addPlusSignsToBase64 p) = some pd ∧ (unmarshal pd out).2 = true ∧
        decodeString (addPlusSignsToBase64 s) = some sig ∧
        algorithms (m.get (lit "alg")) = some alg ∧ sig = hmacSum alg secret si := by
  unfold decodeSegments
  cases h1 : decodeString (addPlusSignsToBase64 h) with
  | none => simp
  | some hd =>
    simp only []
    cases h2 : unmarshalStringMap hd with
    | none => simp [h2]
    | some m =>
      simp only []
      cases h3 : decodeString (addPlusSignsToBase64 p) with
      | none => simp [h2]
      | some pd =>
        simp only []
        cases h4 : (unmarshal pd out).2 with
        | false => simp [h2, h4]
        | true =>
          simp only [Bool.not_true, Bool.false_eq_true, if_false]
          cases h5 : decodeString (addPlusSignsToBase64 s) with
          | none => simp [h2, h4]
          | some sig => simp [h2, h4, verifySignature_eq_none_iff]

theorem unmarshalStringMap_nil : unmarshalStringMap [] = none := by decide

theorem not_mem_of_count_three (h p s : Bytes)
    (hc : (joinDot (joinDot h p) s).count dot = 2) : dot ∉ h ∧ dot ∉ p ∧ dot ∉ s := by
  simp only [joinDot, List.count_append, List.count_cons, List.append_assoc, List.cons_append,
    beq_self_eq_true, if_true] at hc
  refine ⟨List.count_eq_zero.mp ?_, List.count_eq_zero.mp ?_, List.count_eq_zero.mp ?_⟩ <;> omega

/-- C2. `Decode` returns nil exactly when the token has two dots and, written
`h.p.s`, (1) `h` padded again decodes to bytes that unmarshal into a
`map[string]string`, (2) `p` padded again decodes to bytes that unmarshal into
the target, (3) `s` padded again decodes to bytes `sig`, (4) the `alg` of the
header is `"HS256"` or `"HS512"`, and (5) `sig` is the HMAC of the text `h.p`
under that algorithm's hash and the secret; otherwise the error is not nil. -/
theorem C2_decode_nil_iff {τ : Type} (unmarshal : Bytes → τ → τ × Bool)
    (token secret : Bytes) (out : τ) :
    (Decode unmarshal token secret out).1 = none ↔
      token.count dot = 2 ∧ ∃ h p s, token = joinDot (joinDot h p) s ∧
        ∃ hd m pd sig alg,
          decodeString (addPlusSignsToBase64 h) = some hd ∧ unmarshalStringMap hd = some m ∧
          decodeString (addPlusSignsToBase64 p) = some pd ∧ (unmarshal pd out).2 = true ∧
          decodeString (addPlusSignsToBase64 s) = some sig ∧
          (m.get (lit "alg") = lit "HS256" ∨ m.get (lit "alg") = lit "HS512") ∧
          algorithms (m.get (lit "alg")) = some alg ∧
          sig = hmacSum alg secret (joinDot h p) := by
  constructor
  · intro hnil
    by_cases hc : token.count dot = 2
    · refine ⟨hc, ?_⟩
      obtain ⟨a, b, c, ht, ha, hb, hcn⟩ := exists_three_of_count_two token hc
      have ht2 : token = joinDot (joinDot a b) c := by
        simp [joinDot, ht]
      by_cases hne : a = []
      · subst hne
        rw [ht2, Decode_three_nil unmarshal b c secret out hb hcn] at hnil
        simp at hnil
      · rw [ht2, Decode_three unmarshal a b c secret out ha hb hcn hne,
          decodeSegments_nil_iff] at hnil
        obtain ⟨hd, m, pd, sig, alg, h1, h2, h3, h4, h5, h6, h7⟩ := hnil
        refine ⟨a, b, c, ht2, hd, m, pd, sig, alg, h1, h2, h3, h4, h5, ?_, h6, h7⟩
        rcases algorithms_eq_some _ _ h6 with h | h
        · exact Or.inl h.1
        · exact Or.inr h.1
    · rw [Decode_of_count_ne unmarshal token secret out hc] at hnil
      simp at hnil
  · rintro ⟨hc, h, p, s, ht, hd, m, pd, sig, alg, h1, h2, h3, h4, h5, _, h6, h7⟩
    subst ht
    obtain ⟨hh, hp, hs⟩ := not_mem_of_count_three h p s hc
    have hne : h ≠ [] := by
      rintro rfl
      have : hd = [] := by
        have e : decodeString (addPlusSignsToBase64 []) = some [] := by decide
        rw [e] at h1
        exact (Option.some.inj h1).symm
      rw [this, unmarshalStringMap_nil] at h2
      simp at h2
    rw [Decode_three unmarshal h p s secret out hh hp hs hne, decodeSegments_nil_iff]
    exact ⟨hd, m, pd, sig, alg, h1, h2, h3, h4, h5, h6, h7⟩

theorem verifySignature_cases (si sig name secret : Bytes) :
    verifySignature si sig name secret = none ∨
      verifySignature si sig name secret = some .unableToParse ∨
      verifySignature si sig name secret = some .signaturesDontMatch := by
  unfold verifySignature
  cases algorithms name with
  | none => simp
  | some alg =>
    cases hmacEqual sig (hmacSum alg secret si) <;> simp

/-- The payload after the part of `Decode` behind the splits. -/
theorem decodeSegments_slot {τ : Type} (unmarshal : Bytes → τ → τ × Bool)
    (si h p s secret : Bytes) (out : τ) :
    (BeforePayload (decodeSegments unmarshal si h p s secret out).1 ∧
        (decodeSegments unmarshal si h p s secret out).2 = out) ∨
      (¬ BeforePayload (decodeSegments unmarshal si h p s secret out).1 ∧
        ∃ pd, decodeString (addPlusSignsToBase64 p) = some pd ∧
          (decodeSegments unmarshal si h p s secret out).2 = (unmarshal pd out).1) := by
  unfold decodeSegments
  cases h1 : decodeString (addPlusSignsToBase64 h) with
  | none => simp [BeforePayload]
  | some hd =>
    simp only []
    cases h2 : unmarshalStringMap hd with
    | none => simp [BeforePayload]
    | some m =>
      simp only []
      cases h3 : decodeString (addPlusSignsToBase64 p) with
      | none => simp [BeforePayload]
      | some pd =>
        simp only []
        right
        cases h4 : (unmarshal pd out).2 with
        | false => simp [BeforePayload]
        | true =>
          simp only [Bool.not_true, Bool.false_eq_true, if_false]
          cases h5 : decodeString (addPlusSignsToBase64 s) with
          | none => simp [BeforePayload]
          | some sig =>
            rcases verifySignature_cases si sig (m.get (lit "alg")) secret with h | h | h <;>
              simp [BeforePayload, h]

/-- C3, the claim refuted: the token that `Encode` writes for the payload
`true` under the secret `"s3cret"` is decoded under the secret `"wrong"` into a
payload holding `false`; `Decode` returns the error "Signatures don't match"
and the payload holds `true`. -/
theorem C3_counterexample :
    Encode marshalBool true (lit "s3cret") (lit "HS256") =
        .ret (lit "eyJhbGciOiJIUzI1NiIsInR5cCI6IkpXVCJ9.dHJ1ZQ.nFTF-TnoV7SnoB_H5COIhZWNGKpECLSXo2Vi8qOy-4U")
          none ∧
      Decode unmarshalBool
        (lit "eyJhbGciOiJIUzI1NiIsInR5cCI6IkpXVCJ9.dHJ1ZQ.nFTF-TnoV7SnoB_H5COIhZWNGKpECLSXo2Vi8qOy-4U")
        (lit "wrong") false = (some .signaturesDontMatch, true) := by
  decide!

/-- C3, amended. When `Decode` returns an error raised before the payload is
unmarshalled ("Empty or missing parts", "Missing parts", "Signing input missing
parts", "Unable to load header data", "Unable to unmarshal header", "Unable to
load payload data"), the caller's payload holds the value it held before the
call.  In every other case (nil, "Unable to unmarshal payload", "Unable to load
signature data", "Unable to parse it", "Signatures don't match") the token is
`h.p.s` and the payload holds what `json.Unmarshal` made of the decoded bytes of
`p`. -/
theorem C3_decode_slot {τ : Type} (unmarshal : Bytes → τ → τ × Bool)
    (token secret : Bytes) (out : τ) :
    (BeforePayload (Decode unmarshal token secret out).1 →
        (Decode unmarshal token secret out).2 = out) ∧
      (¬ BeforePayload (Decode unmarshal token secret out).1 →
        ∃ h p s pd, token = joinDot (joinDot h p) s ∧
          decodeString (addPlusSignsToBase64 p) = some pd ∧
          (Decode unmarshal token secret out).2 = (unmarshal pd out).1) := by
  by_cases hc : token.count dot = 2
  · obtain ⟨a, b, c, ht, ha, hb, hcn⟩ := exists_three_of_count_two token hc
    have ht2 : token = joinDot (joinDot a b) c := by
      simp [joinDot, ht]
    by_cases hne : a = []
    · subst hne
      rw [ht2, Decode_three_nil unmarshal b c secret out hb hcn]
      simp [BeforePayload]
    · rw [ht2, Decode_three unmarshal a b c secret out ha hb hcn hne]
      rcases decodeSegments_slot unmarshal (joinDot a b) a b c secret out with h | h
      · exact ⟨fun _ => h.2, fun hn => absurd h.1 hn⟩
      · obtain ⟨hn, pd, hpd, hv⟩ := h
        exact ⟨fun hb => absurd hb hn, fun _ => ⟨a, b, c, pd, rfl, hpd, hv⟩⟩
  · rw [Decode_of_count_ne unmarshal token secret out hc]
    simp [BeforePayload]

/-! ## Decoding and encoding again -/

theorem reenc_full (a b c d : Byte) (x y z w : Nat) (out : Bytes)
    (ha : decodeMap a = some x) (hb : decodeMap b = some y) (hc : decodeMap c = some z)
    (hd : decodeMap d = some w) :
    encodeToString (toByte ((x <<< 18 ||| y <<< 12 ||| z <<< 6 ||| w) >>> 16) ::
      toByte ((x <<< 18 ||| y <<< 12 ||| z <<< 6 ||| w) >>> 8) ::
      toByte (x <<< 18 ||| y <<< 12 ||| z <<< 6 ||| w) :: out) =
      a :: b :: c :: d :: encodeToString out := by
  have hx := decodeMap_lt a x ha
  have hy := decodeMap_lt b y hb
  have hz := decodeMap_lt c z hc
  have hw := decodeMap_lt d w hd
  rw [dec4_val x y z w hy hz hw]
  simp only [encodeToString, toByte_val]
  rw [enc3_val _ _ _ (Nat.mod_lt _ (by omega)) (Nat.mod_lt _ (by omega))]
  simp only [and63, Nat.shiftRight_eq_div_pow]
  have e1 : ((x * 262144 + y * 4096 + z * 64 + w) / 2 ^ 16 % 256 * 65536 +
      (x * 262144 + y * 4096 + z * 64 + w) / 2 ^ 8 % 256 * 256 +
      (x * 262144 + y * 4096 + z * 64 + w) % 256) = x * 262144 + y * 4096 + z * 64 + w := by
    omega
  rw [e1]
  have e2 : (x * 262144 + y * 4096 + z * 64 + w) / 2 ^ 18 % 64 = x := by omega
  have e3 : (x * 262144 + y * 4096 + z * 64 + w) / 2 ^ 12 % 64 = y := by omega
  have e4 : (x * 262144 + y * 4096 + z * 64 + w) / 2 ^ 6 % 64 = z := by omega
  have e5 : (x * 262144 + y * 4096 + z * 64 + w) % 64 = w := by omega
  rw [e2, e3, e4, e5, encChar_of_decodeMap a x ha, encChar_of_decodeMap b y hb,
    encChar_of_decodeMap c z hc, encChar_of_decodeMap d w hd]

theorem reenc_two (a b c : Byte) (x y z : Nat)
    (ha : decodeMap a = some x) (hb : decodeMap b = some y) (hc : decodeMap c = some z) :
    encodeToString [toByte ((x <<< 18 ||| y <<< 12 ||| z <<< 6) >>> 16),
      toByte ((x <<< 18 ||| y <<< 12 ||| z <<< 6) >>> 8)] =
      [a, b, encChar (z / 4 * 4), eqSign] := by
  have hx := decodeMap_lt a x ha
  have hy := decodeMap_lt b y hb
  have hz := decodeMap_lt c z hc
  rw [dec3_val x y z hy hz]
  simp only [encodeToString, toByte_val]
  rw [enc2_val _ _ (Nat.mod_lt _ (by omega))]
  simp only [and63, Nat.shiftRight_eq_div_pow]
  have e2 : ((x * 262144 + y * 4096 + z * 64) / 2 ^ 16 % 256 * 65536 +
      (x * 262144 + y * 4096 + z * 64) / 2 ^ 8 % 256 * 256) / 2 ^ 18 % 64 = x := by omega
  have e3 : ((x * 262144 + y * 4096 + z * 64) / 2 ^ 16 % 256 * 65536 +
      (x * 262144 + y * 4096 + z * 64) / 2 ^ 8 % 256 * 256) / 2 ^ 12 % 64 = y := by omega
  have e4 : ((x * 262144 + y * 4096 + z * 64) / 2 ^ 16 % 256 * 65536 +
      (x * 262144 + y * 4096 + z * 64) / 2 ^ 8 % 256 * 256) / 2 ^ 6 % 64 = z / 4 * 4 := by omega
  rw [e2, e3, e4, encChar_of_decodeMap a x ha, encChar_of_decodeMap b y hb]

theorem reenc_one (a b : Byte) (x y : Nat)
    (ha : decodeMap a = some x) (hb : decodeMap b = some y) :
    encodeToString [toByte ((x <<< 18 ||| y <<< 12) >>> 16)] =
      [a, encChar (y / 16 * 16), eqSign, eqSign] := by
  have hx := decodeMap_lt a x ha
  have hy := decodeMap_lt b y hb
  rw [dec2_val x y hy]
  simp only [encodeToString, toByte_val]
  simp only [and63, Nat.shiftRight_eq_div_pow, Nat.shiftLeft_eq]
  have e2 : ((x * 262144 + y * 4096) / 2 ^ 16 % 256 * 2 ^ 16) / 2 ^ 18 % 64 = x := by omega
  have e3 : ((x * 262144 + y * 4096) / 2 ^ 16 % 256 * 2 ^ 16) / 2 ^ 12 % 64 = y / 16 * 16 := by
    omega
  rw [e2, e3, encChar_of_decodeMap a x ha]

/-- One step of `decodeQuanta`, by the shape of its input. -/
theorem decodeQuanta_cons4 (a b c d : Byte) (rest bs : Bytes)
    (h : decodeQuanta (a :: b :: c :: d :: rest) = some bs) :
    ∃ x y, decodeMap a = some x ∧ decodeMap b = some y ∧
      ((∃ z w out, decodeMap c = some z ∧ decodeMap d = some w ∧ decodeQuanta rest = some out ∧
          bs = toByte ((x <<< 18 ||| y <<< 12 ||| z <<< 6 ||| w) >>> 16) ::
            toByte ((x <<< 18 ||| y <<< 12 ||| z <<< 6 ||| w) >>> 8) ::
            toByte (x <<< 18 ||| y <<< 12 ||| z <<< 6 ||| w) :: out) ∨
        (∃ z, decodeMap c = some z ∧ d = eqSign ∧ rest = [] ∧
          bs = [toByte ((x <<< 18 ||| y <<< 12 ||| z <<< 6) >>> 16),
            toByte ((x <<< 18 ||| y <<< 12 ||| z <<< 6) >>> 8)]) ∨
        (c = eqSign ∧ d = eqSign ∧ rest = [] ∧ bs = [toByte ((x <<< 18 ||| y <<< 12) >>> 16)])) := by
  unfold decodeQuanta at h
  cases ha : decodeMap a with
  | none => simp [ha] at h
  | some x =>
    cases hb : decodeMap b with
    | none => simp [ha, hb] at h
    | some y =>
      refine ⟨x, y, rfl, rfl, ?_⟩
      simp only [ha, hb] at h
      cases hc : decodeMap c with
      | none =>
        simp only [hc] at h
        right
        right
        by_cases hh : c = eqSign ∧ d = eqSign ∧ rest = []
        · simp only [hh, and_self, if_true, Option.some.injEq] at h
          exact ⟨hh.1, hh.2.1, hh.2.2, h.symm⟩
        · simp [hh] at h
      | some z =>
        cases hd : decodeMap d with
        | none =>
          simp only [hc, hd] at h
          right
          left
          by_cases hh : d = eqSign ∧ rest = []
          · simp only [hh, and_self, if_true, Option.some.injEq] at h
            exact ⟨z, rfl, hh.1, hh.2, h.symm⟩
          · simp [hh] at h
        | some w =>
          simp only [hc, hd] at h
          left
          cases hr : decodeQuanta rest with
          | none => simp [hr] at h
          | some out =>
            simp only [hr, Option.some.injEq] at h
            exact ⟨z, w, out, rfl, rfl, rfl, h.symm⟩

/-- What is decoded, encoded again, is the input up to the last character in
front of the padding, whose unused low bits (two for each `=`) come back as
zeros. -/
theorem decodeQuanta_reenc (n : Nat) : ∀ (l bs : Bytes), l.length ≤ n →
    decodeQuanta l = some bs →
    (l = [] ∧ bs = []) ∨ ∃ pre c v pads, l = pre ++ c :: pads ∧ decodeMap c = some v ∧
      encodeToString bs =
        pre ++ encChar (v / 2 ^ (2 * pads.length) * 2 ^ (2 * pads.length)) :: pads ∧
      ∀ x ∈ pads, x = eqSign := by
  induction n with
  | zero =>
    intro l bs hl h
    have : l = [] := List.length_eq_zero.mp (by omega)
    subst this
    left
    simpa [decodeQuanta] using h
  | succ n ih =>
    intro l bs hl h
    match l, hl, h with
    | [], _, h =>
      left
      simpa [decodeQuanta] using h
    | [_], _, h => simp [decodeQuanta] at h
    | [_, _], _, h => simp [decodeQuanta] at h
    | [_, _, _], _, h => simp [decodeQuanta] at h
    | a :: b :: c :: d :: rest, hl, h =>
      right
      obtain ⟨x, y, ha, hb, hcase⟩ := decodeQuanta_cons4 a b c d rest bs h
      rcases hcase with ⟨z, w, out, hc, hd, hr, hbs⟩ | ⟨z, hc, hd, hr, hbs⟩ | ⟨hc, hd, hr, hbs⟩
      · have hlen : rest.length ≤ n := by
          simp only [List.length_cons] at hl
          omega
        rw [hbs, reenc_full a b c d x y z w out ha hb hc hd]
        rcases ih rest out hlen hr with ⟨h1, h2⟩ | ⟨pre, c1, v, pads, h1, hv, h2, h3⟩
        · subst h1 h2
          refine ⟨[a, b, c], d, w, [], rfl, hd, ?_, by simp⟩
          simp [encodeToString, encChar_of_decodeMap d w hd]
        · exact ⟨a :: b :: c :: d :: pre, c1, v, pads, by simp [h1], hv, by simp [h2], h3⟩
      · subst hd hr
        refine ⟨[a, b], c, z, [eqSign], rfl, hc, ?_, by simp⟩
        rw [hbs, reenc_two a b c x y z ha hb hc]
        rfl
      · subst hc hd hr
        refine ⟨[a], b, y, [eqSign, eqSign], rfl, hb, ?_, by simp⟩
        rw [hbs, reenc_one a b x y ha hb]
        rfl

theorem decodeQuanta_length (n : Nat) : ∀ (l bs : Bytes), l.length ≤ n →
    decodeQuanta l = some bs → l.length % 4 = 0 := by
  induction n with
  | zero =>
    intro l bs hl _
    have : l = [] := List.length_eq_zero.mp (by omega)
    simp [this]
  | succ n ih =>
    intro l bs hl h
    match l, hl, h with
    | [], _, _ => simp
    | [_], _, h => simp [decodeQuanta] at h
    | [_, _], _, h => simp [decodeQuanta] at h
    | [_, _, _], _, h => simp [decodeQuanta] at h
    | a :: b :: c :: d :: rest, hl, h =>
      obtain ⟨x, y, ha, hb, hcase⟩ := decodeQuanta_cons4 a b c d rest bs h
      rcases hcase with ⟨z, w, out, hc, hd, hr, hbs⟩ | ⟨z, hc, hd, hr, hbs⟩ | ⟨hc, hd, hr, hbs⟩
      · have hlen : rest.length ≤ n := by
          simp only [List.length_cons] at hl
          omega
        have := ih rest out hlen hr
        simp only [List.length_cons]
        omega
      · subst hr
        simp
      · subst hr
        simp

/-- The function `addPlusSignsToBase64` appends the `=` characters that bring the length to
a multiple of four. -/
theorem addPlus_eq_append (d : Bytes) :
    addPlusSignsToBase64 d = d ++ List.replicate ((4 - d.length % 4) % 4) eqSign := by
  unfold addPlusSignsToBase64
  have h4 : d.length % 4 < 4 := Nat.mod_lt _ (by omega)
  by_cases h : d.length % 4 > 0
  · have e : (4 - d.length % 4) % 4 = 4 - d.length % 4 := by omega
    simp only [h, if_true, appendEq_eq, e]
  · have e : (4 - d.length % 4) % 4 = 0 := by omega
    simp only [h, if_false, e, List.replicate_zero, List.append_nil]

theorem getElem?_append_cons_of_ne (pre t : Bytes) (x y : Byte) (m : Nat)
    (h : m ≠ pre.length) : (pre ++ x :: t)[m]? = (pre ++ y :: t)[m]? := by
  induction pre generalizing m with
  | nil =>
    cases m with
    | zero => simp at h
    | succ m => simp
  | cons a pre ih =>
    cases m with
    | zero => simp
    | succ m =>
      simp only [List.cons_append, List.getElem?_cons_succ]
      exact ih m (fun e => h (by simp [e]))

theorem getElem?_append_cons_self (pre t : Bytes) (x : Byte) :
    (pre ++ x :: t)[pre.length]? = some x := by
  induction pre with
  | nil => simp
  | cons a pre ih => simpa using ih

theorem not_newline_of_b64_or_eq (c : Byte) (h : B64Char c ∨ c = eqSign) :
    (decide (c ≠ 10 ∧ c ≠ 13)) = true := by
  rcases h with h | h
  · have h10 : c ≠ 10 := fun e => not_b64Char_special.2.2.1 (e ▸ h)
    have h13 : c ≠ 13 := fun e => not_b64Char_special.2.2.2 (e ▸ h)
    simp [h10, h13]
  · subst h
    decide

theorem filter_newline_of_b64 (s : Bytes) (h : ∀ c ∈ s, B64Char c ∨ c = eqSign) :
    s.filter (fun c => c ≠ 10 ∧ c ≠ 13) = s := by
  rw [List.filter_eq_self]
  intro c hc
  exact not_newline_of_b64_or_eq c (h c hc)

/-- A character of the unpadded encoding of `sig` is replaced by a different
character, which is not the last one, or is not of the alphabet, or differs
from the old one above the unused low bits: the text no longer decodes to
`sig`. -/
theorem tamper_b64 (sig G1 G2 : Bytes) (g c1 : Byte)
    (hG : (encodeToString sig).filter (fun x => x ≠ eqSign) = G1 ++ g :: G2)
    (hc : c1 ≠ g)
    (hcase : G2 ≠ [] ∨ ∀ v v1, decodeMap g = some v → decodeMap c1 = some v1 →
      v1 / 2 ^ unusedBits (G1 ++ g :: G2) ≠ v / 2 ^ unusedBits (G1 ++ g :: G2)) :
    decodeString (addPlusSignsToBase64 (G1 ++ c1 :: G2)) ≠ some sig := by
  intro hdec
  have hchars := filter_encodeToString_chars sig
  rw [hG] at hchars
  have hlen : (G1 ++ c1 :: G2).length = (G1 ++ g :: G2).length := by simp
  have hpads : ∀ x ∈ List.replicate ((4 - (G1 ++ g :: G2).length % 4) % 4) eqSign,
      B64Char x ∨ x = eqSign := fun x hx => Or.inr (List.eq_of_mem_replicate hx)
  have hmod : ((G1 ++ g :: G2) ++
      List.replicate ((4 - (G1 ++ g :: G2).length % 4) % 4) eqSign).length % 4 = 0 := by
    simp only [List.length_append, List.length_replicate]
    omega
  have hG1 : ∀ x ∈ G1, B64Char x ∨ x = eqSign := fun x hx => Or.inl (hchars x (by simp [hx]))
  have hG2 : ∀ x ∈ G2, B64Char x ∨ x = eqSign := fun x hx => Or.inl (hchars x (by simp [hx]))
  rw [addPlus_eq_append, hlen] at hdec
  unfold decodeString at hdec
  by_cases hnl : c1 = 10 ∨ c1 = 13
  · -- the new character is skipped by the decoder: the quanta are out of step
    have hf : (decide (c1 ≠ 10 ∧ c1 ≠ 13)) = false := by
      rcases hnl with h | h <;> simp [h]
    have hfil : ((G1 ++ c1 :: G2) ++
        List.replicate ((4 - (G1 ++ g :: G2).length % 4) % 4) eqSign).filter
          (fun c => c ≠ 10 ∧ c ≠ 13) =
        G1 ++ G2 ++ List.replicate ((4 - (G1 ++ g :: G2).length % 4) % 4) eqSign := by
      simp only [List.filter_append, List.filter_cons, hf, filter_newline_of_b64 G1 hG1,
        filter_newline_of_b64 G2 hG2, filter_newline_of_b64 _ hpads]
      simp
    rw [hfil] at hdec
    have := decodeQuanta_length _ _ _ (Nat.le_refl _) hdec
    simp only [List.length_append, List.length_replicate, List.length_cons] at this hmod
    omega
  · have ht : (decide (c1 ≠ 10 ∧ c1 ≠ 13)) = true := by
      simp only [not_or] at hnl
      simp [hnl.1, hnl.2]
    have hfil : ((G1 ++ c1 :: G2) ++
        List.replicate ((4 - (G1 ++ g :: G2).length % 4) % 4) eqSign).filter
          (fun c => c ≠ 10 ∧ c ≠ 13) =
        (G1 ++ c1 :: G2) ++ List.replicate ((4 - (G1 ++ g :: G2).length % 4) % 4) eqSign := by
      simp only [List.filter_append, List.filter_cons, ht, filter_newline_of_b64 G1 hG1,
        filter_newline_of_b64 G2 hG2, filter_newline_of_b64 _ hpads]
      simp
    rw [hfil] at hdec
    have henc2 : encodeToString sig =
        (G1 ++ g :: G2) ++ List.replicate ((4 - (G1 ++ g :: G2).length % 4) % 4) eqSign := by
      rw [← addPlus_eq_append, ← hG, addPlus_filter_encodeToString]
    rcases decodeQuanta_reenc _ _ _ (Nat.le_refl _) hdec with
      ⟨h1, _⟩ | ⟨pre, c, v1, pd, h1, hv1, h2, h3⟩
    · simp at h1
    · rw [henc2] at h2
      by_cases hn : G1.length = pre.length
      · -- the changed place is the last one in front of the padding
        have h2a : G1 ++ (g :: (G2 ++
            List.replicate ((4 - (G1 ++ g :: G2).length % 4) % 4) eqSign)) =
            pre ++ encChar (v1 / 2 ^ (2 * pd.length) * 2 ^ (2 * pd.length)) :: pd := by
          rw [← h2]
          simp
        have e0 := (List.append_inj h2a hn).2
        have e1 : G2 ++ List.replicate ((4 - (G1 ++ g :: G2).length % 4) % 4) eqSign = pd :=
          (List.cons.inj e0).2
        have eg : g = encChar (v1 / 2 ^ (2 * pd.length) * 2 ^ (2 * pd.length)) :=
          (List.cons.inj e0).1
        cases G2 with
        | cons x G2 =>
          have hx : x ∈ pd := by
            rw [← e1]
            simp
          have := hchars x (by simp)
          rw [h3 x hx] at this
          exact not_b64Char_special.1 this
        | nil =>
          rcases hcase with hne | hbits
          · exact hne rfl
          · have h1a : G1 ++ (c1 :: List.replicate ((4 - (G1 ++ [g]).length % 4) % 4) eqSign) =
                pre ++ c :: pd := by
              rw [← h1]
              simp
            have ec : c1 = c := (List.cons.inj (List.append_inj h1a hn).2).1
            have hpl : pd.length = (4 - (G1 ++ [g]).length % 4) % 4 := by
              rw [← e1]
              simp
            have hv1lt := decodeMap_lt c v1 hv1
            have hpos : 0 < 2 ^ (2 * pd.length) := Nat.two_pow_pos _
            have hle : v1 / 2 ^ (2 * pd.length) * 2 ^ (2 * pd.length) ≤ v1 :=
              Nat.div_mul_le_self _ _
            have hgv : decodeMap g =
                some (v1 / 2 ^ (2 * pd.length) * 2 ^ (2 * pd.length)) := by
              rw [eg]
              exact decodeMap_encChar _ (by omega)
            have := hbits _ v1 hgv (ec ▸ hv1)
            apply this
            simp only [unusedBits, ← hpl]
            rw [Nat.mul_div_cancel _ hpos]
      · have a1 := getElem?_append_cons_of_ne pre pd
          (encChar (v1 / 2 ^ (2 * pd.length) * 2 ^ (2 * pd.length))) c G1.length hn
        rw [← h2, ← h1] at a1
        simp only [List.append_assoc, List.cons_append] at a1
        rw [getElem?_append_cons_self, getElem?_append_cons_self] at a1
        exact hc (Option.some.inj a1).symm

/-- The length of an encoding without its padding. -/
theorem segment_length (b : Bytes) :
    ((encodeToString b).filter (fun x => x ≠ eqSign)).length = (4 * b.length + 2) / 3 := by
  induction b using encodeToString.induct with
  | case1 => simp [encodeToString]
  | case2 a => simp [encodeToString, encChar_sextet_ne_eqSign, List.filter_cons]
  | case3 a b => simp [encodeToString, encChar_sextet_ne_eqSign, List.filter_cons]
  | case4 a b c rest ih =>
    simp only [encodeToString, List.filter_cons, encChar_sextet_ne_eqSign, ne_eq,
      not_false_eq_true, decide_True, if_true, List.length_cons, ih]
    omega

/-- The function `Decode` returns nil on a token with the header and payload segments that
`Encode` writes and some signature segment free of dots: that segment decodes
to the digest of the signing input under the secret given to `Decode`. -/
theorem Decode_encoded_sig {τ : Type} (unmarshal : Bytes → τ → τ × Bool)
    (A secret j G : Bytes) (alg : Hash) (out : τ)
    (hA : A = lit "HS256" ∨ A = lit "HS512") (halg : algorithms A = some alg) (hG : dot ∉ G)
    (hnil : (Decode unmarshal (joinDot (joinDot
        ((encodeToString (marshalStringMap
          [(lit "typ", tokenType), (lit "alg", A)])).filter (fun x => x ≠ eqSign))
        ((encodeToString j).filter (fun x => x ≠ eqSign))) G) secret out).1 = none) :
    decodeString (addPlusSignsToBase64 G) = some (hmacSum alg secret (joinDot
        ((encodeToString (marshalStringMap
          [(lit "typ", tokenType), (lit "alg", A)])).filter (fun x => x ≠ eqSign))
        ((encodeToString j).filter (fun x => x ≠ eqSign)))) := by
  rw [Decode_three unmarshal _ _ _ secret out (dot_not_mem_segment _) (dot_not_mem_segment _) hG
    (header_segment_ne_nil A hA), decodeSegments_nil_iff] at hnil
  obtain ⟨hd, m, pd, sig, alg1, h1, h2, _, _, h5, h6, h7⟩ := hnil
  obtain ⟨m0, hm0, hget⟩ := header_read_back A hA
  rw [addPlus_filter_encodeToString, decodeString_encodeToString] at h1
  rw [← Option.some.inj h1, hm0] at h2
  rw [← Option.some.inj h2, hget, halg] at h6
  rw [h5, h7, ← Option.some.inj h6]

theorem count_joinDot (a b : Bytes) : (joinDot a b).count dot = a.count dot + b.count dot + 1 := by
  simp [joinDot, List.count_append, List.count_cons]
  omega

/-- C4, the claim refuted: in the token that `Encode` writes for the payload
`true` under the secret `"s3cret"` and `"HS256"`, the last character `U` of the
signature segment is replaced by `V`; `Decode` under the same secret returns
nil. -/
theorem C4_counterexample :
    Encode marshalBool true (lit "s3cret") (lit "HS256") =
        .ret (lit "eyJhbGciOiJIUzI1NiIsInR5cCI6IkpXVCJ9.dHJ1ZQ.nFTF-TnoV7SnoB_H5COIhZWNGKpECLSXo2Vi8qOy-4U")
          none ∧
      lit "eyJhbGciOiJIUzI1NiIsInR5cCI6IkpXVCJ9.dHJ1ZQ.nFTF-TnoV7SnoB_H5COIhZWNGKpECLSXo2Vi8qOy-4V" =
        (lit "eyJhbGciOiJIUzI1NiIsInR5cCI6IkpXVCJ9.dHJ1ZQ.nFTF-TnoV7SnoB_H5COIhZWNGKpECLSXo2Vi8qOy-4U").dropLast
          ++ lit "V" ∧
      Decode unmarshalBool
        (lit "eyJhbGciOiJIUzI1NiIsInR5cCI6IkpXVCJ9.dHJ1ZQ.nFTF-TnoV7SnoB_H5COIhZWNGKpECLSXo2Vi8qOy-4V")
        (lit "s3cret") false = (none, true) := by
  decide!

/-- C4, amended. For a token written by `Encode` under `"HS256"` or `"HS512"`,
with signature segment `G` (the text behind the last dot), every token got by
replacing one character of `G` by a different character makes `Decode` under
the same secret return an error that is not nil, unless the character is the
last one of `G` and the new character is a character of the alphabet that
differs from the old one in the unused low bits only (two bits under
`"HS256"`, four under `"HS512"`). -/
theorem C4_tamper_detected {π τ : Type} (marshal : π → Option Bytes)
    (unmarshal : Bytes → τ → τ × Bool) (P : π) (S A : Bytes) (out : τ) (j : Bytes)
    (hA : A = lit "HS256" ∨ A = lit "HS512") (hm : marshal P = some j) :
    ∃ si G, Encode marshal P S A = .ret (joinDot si G) none ∧ dot ∉ G ∧
      unusedBits G = (if A = lit "HS256" then 2 else 4) ∧
      ∀ (G1 G2 : Bytes) (g c1 : Byte), G = G1 ++ g :: G2 → c1 ≠ g →
        (G2 ≠ [] ∨ ∀ v v1, decodeMap g = some v → decodeMap c1 = some v1 →
          v1 / 2 ^ unusedBits G ≠ v / 2 ^ unusedBits G) →
        (Decode unmarshal (joinDot si (G1 ++ c1 :: G2)) S out).1 ≠ none := by
  obtain ⟨alg, halg⟩ := algorithms_isSome A hA
  refine ⟨_, _, Encode_eq marshal P S A alg j halg hm, dot_not_mem_segment _, ?_, ?_⟩
  · rcases hA with h | h
    · subst h
      rw [algorithms_HS256] at halg
      rw [← Option.some.inj halg, unusedBits, segment_length, hmacSum_HS256_length]
      rfl
    · subst h
      rw [algorithms_HS512] at halg
      rw [← Option.some.inj halg, unusedBits, segment_length, hmacSum_HS512_length]
      have hne : lit "HS512" ≠ lit "HS256" := by decide
      simp [hne]
  · intro G1 G2 g c1 hG hc hcase hnil
    by_cases hdot : dot ∈ G1 ++ c1 :: G2
    · have hcount : (joinDot (joinDot
          ((encodeToString (marshalStringMap
            [(lit "typ", tokenType), (lit "alg", A)])).filter (fun x => x ≠ eqSign))
          ((encodeToString j).filter (fun x => x ≠ eqSign))) (G1 ++ c1 :: G2)).count dot ≠ 2 := by
        rw [count_joinDot, count_joinDot]
        have := List.count_pos_iff.mpr hdot
        omega
      rw [Decode_of_count_ne unmarshal _ S out hcount] at hnil
      simp at hnil
    · rw [hG] at hcase
      exact tamper_b64 _ G1 G2 g c1 hG hc hcase
        (Decode_encoded_sig unmarshal A S j _ alg out hA halg hdot hnil)

/-- C4, amended, at the payload `true`, the secret `"s3cret"` and `"HS256"`. -/
theorem C4_tamper_detected_witness :
    marshalBool true = some (lit "true") ∧
    ∃ si G, Encode marshalBool true (lit "s3cret") (lit "HS256") = .ret (joinDot si G) none ∧
      dot ∉ G ∧ unusedBits G = (if lit "HS256" = lit "HS256" then 2 else 4) ∧
      ∀ (G1 G2 : Bytes) (g c1 : Byte), G = G1 ++ g :: G2 → c1 ≠ g →
        (G2 ≠ [] ∨ ∀ v v1, decodeMap g = some v → decodeMap c1 = some v1 →
          v1 / 2 ^ unusedBits G ≠ v / 2 ^ unusedBits G) →
        (Decode unmarshalBool (joinDot si (G1 ++ c1 :: G2)) (lit "s3cret") false).1 ≠ none :=
  ⟨by decide,
    C4_tamper_detected marshalBool unmarshalBool true (lit "s3cret") (lit "HS256") false
      (lit "true") (Or.inl rfl) (by decide)⟩

/-- The digest depends on the key through its key block only. -/
theorem hmacSum_eq_of_keyBlock (h : Hash) (k1 k2 msg : Bytes)
    (hk : hmacKeyBlock h k1 = hmacKeyBlock h k2) : hmacSum h k1 msg = hmacSum h k2 msg := by
  simp only [hmacSum, hk]

/-- C5, the claim refuted: the token that `Encode` writes for the payload
`true` under the secret `"s3cret"` and `"HS256"` is decoded under the different
secret `"s3cret\x00"`; `Decode` returns nil. -/
theorem C5_counterexample :
    Encode marshalBool true (lit "s3cret") (lit "HS256") =
        .ret (lit "eyJhbGciOiJIUzI1NiIsInR5cCI6IkpXVCJ9.dHJ1ZQ.nFTF-TnoV7SnoB_H5COIhZWNGKpECLSXo2Vi8qOy-4U")
          none ∧
      lit "s3cret" ++ [0] ≠ lit "s3cret" ∧
      Decode unmarshalBool
        (lit "eyJhbGciOiJIUzI1NiIsInR5cCI6IkpXVCJ9.dHJ1ZQ.nFTF-TnoV7SnoB_H5COIhZWNGKpECLSXo2Vi8qOy-4U")
        (lit "s3cret" ++ [0]) false = (none, true) := by
  decide!

/-- C5, amended. For a token `si.G` written by `Encode(P, S, A)` with `A` among
`"HS256"` and `"HS512"`, and every secret `S1` whose HMAC of the signing input
`si` under the hash of `A` differs from that of `S`, `Decode` under `S1` returns
an error that is not nil, the error "Signatures don't match" when
`json.Unmarshal` accepts the payload.  A secret with the same digest is
accepted; such are the secrets with the key block of `S` (`S` followed by zero
bytes up to the block size of the hash). -/
theorem C5_wrong_secret {π τ : Type} (marshal : π → Option Bytes)
    (unmarshal : Bytes → τ → τ × Bool) (P : π) (S A : Bytes) (out : τ) (j : Bytes)
    (hA : A = lit "HS256" ∨ A = lit "HS512") (hm : marshal P = some j) :
    ∃ si G alg, Encode marshal P S A = .ret (joinDot si G) none ∧ dot ∉ G ∧
      algorithms A = some alg ∧
      ∀ S1 : Bytes,
        (hmacSum alg S1 si ≠ hmacSum alg S si →
          (Decode unmarshal (joinDot si G) S1 out).1 ≠ none ∧
          ((unmarshal j out).2 = true →
            (Decode unmarshal (joinDot si G) S1 out).1 = some .signaturesDontMatch)) ∧
        (hmacSum alg S1 si = hmacSum alg S si → (unmarshal j out).2 = true →
          (Decode unmarshal (joinDot si G) S1 out).1 = none) ∧
        (hmacKeyBlock alg S1 = hmacKeyBlock alg S → hmacSum alg S1 si = hmacSum alg S si) := by
  obtain ⟨alg, halg⟩ := algorithms_isSome A hA
  refine ⟨_, _, alg, Encode_eq marshal P S A alg j halg hm, dot_not_mem_segment _, halg, ?_⟩
  intro S1
  rw [Decode_three unmarshal _ _ _ S1 out (dot_not_mem_segment _) (dot_not_mem_segment _)
    (dot_not_mem_segment _) (header_segment_ne_nil A hA),
    decodeSegments_encoded unmarshal A S1 S j alg out hA halg]
  refine ⟨fun hne => ?_, fun he hu => ?_, fun hk => hmacSum_eq_of_keyBlock alg S1 S _ hk⟩
  · have hne2 : ¬ hmacSum alg S _ = hmacSum alg S1 _ := fun e => hne e.symm
    rw [if_neg hne2]
    constructor
    · split <;> simp
    · intro hu
      rw [if_pos hu]
  · rw [if_pos hu, if_pos he.symm]

/-- C5, amended, at the payload `true`, the secret `"s3cret"` and `"HS256"`. -/
theorem C5_wrong_secret_witness :
    marshalBool true = some (lit "true") ∧
    ∃ si G alg, Encode marshalBool true (lit "s3cret") (lit "HS256") = .ret (joinDot si G) none ∧
      dot ∉ G ∧ algorithms (lit "HS256") = some alg ∧
      ∀ S1 : Bytes,
        (hmacSum alg S1 si ≠ hmacSum alg (lit "s3cret") si →
          (Decode unmarshalBool (joinDot si G) S1 false).1 ≠ none ∧
          ((unmarshalBool (lit "true") false).2 = true →
            (Decode unmarshalBool (joinDot si G) S1 false).1 = some .signaturesDontMatch)) ∧
        (hmacSum alg S1 si = hmacSum alg (lit "s3cret") si →
          (unmarshalBool (lit "true") false).2 = true →
          (Decode unmarshalBool (joinDot si G) S1 false).1 = none) ∧
        (hmacKeyBlock alg S1 = hmacKeyBlock alg (lit "s3cret") →
          hmacSum alg S1 si = hmacSum alg (lit "s3cret") si) :=
  ⟨by decide,
    C5_wrong_secret marshalBool unmarshalBool true (lit "s3cret") (lit "HS256") false
      (lit "true") (Or.inl rfl) (by decide)⟩

/-- C6. For every payload, whatever `json.Marshal` would do with it, every
secret and every algorithm name other than exactly `"HS256"` and `"HS512"`,
`Encode` returns the empty string and the error "Unable to parse it"; the
result does not depend on the serialization, which is not reached. -/
theorem C6_encode_unknown_algorithm {π : Type} (marshal : π → Option Bytes) (P : π)
    (S A : Bytes) (h1 : A ≠ lit "HS256") (h2 : A ≠ lit "HS512") :
    Encode marshal P S A = .ret [] (some .unableToParse) := by
  simp [Encode, algorithms_eq_none A h1 h2]

/-- C6 at the names `"hs256"`, `""`, `"HS12131"` and `"NOT_REAL"`, the first with a
payload that `json.Marshal` rejects. -/
theorem C6_encode_unknown_algorithm_witness :
    Encode (fun _ : Bool => none) true (lit "s3cret") (lit "hs256") =
        .ret [] (some .unableToParse) ∧
      Encode marshalBool true (lit "s3cret") (lit "") = .ret [] (some .unableToParse) ∧
      Encode marshalBool true (lit "s3cret") (lit "HS12131") = .ret [] (some .unableToParse) ∧
      Encode marshalBool true (lit "s3cret") (lit "NOT_REAL") = .ret [] (some .unableToParse) :=
  ⟨C6_encode_unknown_algorithm _ true _ _ (by decide) (by decide),
    C6_encode_unknown_algorithm _ true _ _ (by decide) (by decide),
    C6_encode_unknown_algorithm _ true _ _ (by decide) (by decide),
    C6_encode_unknown_algorithm _ true _ _ (by decide) (by decide)⟩

/-- C7. For a token `h.p.s` whose header segment decodes and unmarshals into a
map without an `alg` entry, or with an `alg` other than exactly `"HS256"` and
`"HS512"`, `Decode` returns an error that is not nil, for every payload
segment, signature segment, secret and target. -/
theorem C7_decode_unknown_algorithm {τ : Type} (unmarshal : Bytes → τ → τ × Bool)
    (h p s secret : Bytes) (out : τ) (hd : Bytes) (m : StringMap)
    (h1 : decodeString (addPlusSignsToBase64 h) = some hd)
    (h2 : unmarshalStringMap hd = some m)
    (h3 : m.get (lit "alg") ≠ lit "HS256") (h4 : m.get (lit "alg") ≠ lit "HS512") :
    (Decode unmarshal (joinDot (joinDot h p) s) secret out).1 ≠ none := by
  intro hnil
  by_cases hc : (joinDot (joinDot h p) s).count dot = 2
  · obtain ⟨hh, hp, hs⟩ := not_mem_of_count_three h p s hc
    by_cases hne : h = []
    · subst hne
      rw [Decode_three_nil unmarshal p s secret out hp hs] at hnil
      simp at hnil
    · rw [Decode_three unmarshal h p s secret out hh hp hs hne, decodeSegments_nil_iff] at hnil
      obtain ⟨hd1, m1, _, _, alg, e1, e2, _, _, _, e6, _⟩ := hnil
      rw [h1] at e1
      rw [← Option.some.inj e1, h2] at e2
      rw [← Option.some.inj e2, algorithms_eq_none _ h3 h4] at e6
      simp at e6
  · rw [Decode_of_count_ne unmarshal _ secret out hc] at hnil
    simp at hnil

/-- C7 at a token whose header is `{"alg":"none","typ":"JWT"}`. -/
theorem C7_decode_unknown_algorithm_witness :
    decodeString (addPlusSignsToBase64 (lit "eyJhbGciOiJub25lIiwidHlwIjoiSldUIn0")) =
        some (lit "\x7b\"alg\":\"none\",\"typ\":\"JWT\"\x7d") ∧
      unmarshalStringMap (lit "\x7b\"alg\":\"none\",\"typ\":\"JWT\"\x7d") =
        some [(lit "typ", lit "JWT"), (lit "alg", lit "none")] ∧
      (Decode unmarshalBool
        (joinDot (joinDot (lit "eyJhbGciOiJub25lIiwidHlwIjoiSldUIn0") (lit "dHJ1ZQ")) [])
        (lit "s3cret") false).1 ≠ none :=
  ⟨by decide!, by decide!,
    C7_decode_unknown_algorithm unmarshalBool _ _ _ _ false
      (lit "\x7b\"alg\":\"none\",\"typ\":\"JWT\"\x7d")
      [(lit "typ", lit "JWT"), (lit "alg", lit "none")] (by decide!) (by decide!)
      (by decide) (by decide)⟩

theorem hmacEqual_of_length_ne (x y : Bytes) (h : x.length ≠ y.length) :
    hmacEqual x y = false := by
  rw [Bool.eq_false_iff]
  intro e
  exact h (congrArg List.length ((hmacEqual_iff x y).mp e))

/-- C8. For every signing input and all secrets `S` and `S1`, `verifySignature`
with the HMAC-SHA256 digest under `S` and the name `"HS512"` returns the error
"Signatures don't match", and so it does with the HMAC-SHA512 digest and the
name `"HS256"`: the digests of 32 and of 64 bytes never compare equal. -/
theorem C8_algorithm_independence (si S S1 : Bytes) :
    verifySignature si (hmacSum HS256 S si) (lit "HS512") S1 = some .signaturesDontMatch ∧
      verifySignature si (hmacSum HS512 S si) (lit "HS256") S1 = some .signaturesDontMatch ∧
      (hmacSum HS256 S si).length = 32 ∧ (hmacSum HS512 S1 si).length = 64 := by
  refine ⟨?_, ?_, hmacSum_HS256_length S si, hmacSum_HS512_length S1 si⟩
  · have h := hmacEqual_of_length_ne (hmacSum HS256 S si) (hmacSum HS512 S1 si)
      (by rw [hmacSum_HS256_length, hmacSum_HS512_length]; omega)
    simp [verifySignature, algorithms_HS512, h]
  · have h := hmacEqual_of_length_ne (hmacSum HS512 S si) (hmacSum HS256 S1 si)
      (by rw [hmacSum_HS256_length, hmacSum_HS512_length]; omega)
    simp [verifySignature, algorithms_HS256, h]

theorem dropWhile_replicate_append (k : Nat) (r : Bytes) :
    (List.replicate k eqSign ++ r).dropWhile (fun c => c = eqSign) =
      r.dropWhile (fun c => c = eqSign) := by
  induction k with
  | zero => simp
  | succ k ih => simp [List.replicate_succ, List.dropWhile_cons, ih]

theorem noPad_append_replicate (G : Bytes) (k : Nat) (hG : ∀ c ∈ G, c ≠ eqSign) :
    noPad (G ++ List.replicate k eqSign) = G := by
  unfold noPad
  rw [List.reverse_append, List.reverse_replicate, dropWhile_replicate_append]
  cases hr : G.reverse with
  | nil =>
    have : G = [] := by simpa using hr
    simp [this]
  | cons x t =>
    have hx : x ≠ eqSign := hG x (by
      have : x ∈ G.reverse := by simp [hr]
      simpa using this)
    have : (x :: t).dropWhile (fun c => c = eqSign) = x :: t := by
      simp [List.dropWhile_cons, hx]
    rw [this, ← hr, List.reverse_reverse]

/-- Taking every `=` off an encoding takes off its trailing padding. -/
theorem filter_eq_b64urlNoPad (b : Bytes) :
    (encodeToString b).filter (fun x => x ≠ eqSign) = b64urlNoPad b := by
  have h : encodeToString b = (encodeToString b).filter (fun x => x ≠ eqSign) ++
      List.replicate
        ((4 - ((encodeToString b).filter (fun x => x ≠ eqSign)).length % 4) % 4) eqSign := by
    rw [← addPlus_eq_append, addPlus_filter_encodeToString]
  unfold b64urlNoPad
  conv => rhs; rw [h]
  rw [noPad_append_replicate]
  intro c hc
  exact fun e => not_b64Char_special.1 (e ▸ filter_encodeToString_chars b c hc)

theorem marshal_header (A : Bytes) (hA : A = lit "HS256" ∨ A = lit "HS512") :
    marshalStringMap [(lit "typ", tokenType), (lit "alg", A)] = headerJSON A := by
  rcases hA with h | h <;> subst h <;> decide!

/-- C9. For a payload that `json.Marshal` serializes to `j`, any secret and an
algorithm `A` among `"HS256"` and `"HS512"`, the token returned by `Encode` is
`NOPAD(B64URL(header)) + "." + NOPAD(B64URL(j)) + "." + NOPAD(B64URL(HMAC_A(secret,
NOPAD(B64URL(header)) + "." + NOPAD(B64URL(j)))))` with `header` the bytes
`{"alg":"<A>","typ":"JWT"}`, `NOPAD` taking off the trailing `=` and the hash of
`HMAC_A` the one registered for `A`. -/
theorem C9_wire_format {π : Type} (marshal : π → Option Bytes) (P : π) (S A j : Bytes)
    (hA : A = lit "HS256" ∨ A = lit "HS512") (hm : marshal P = some j) :
    ∃ alg, algorithms A = some alg ∧
      Encode marshal P S A =
        .ret (b64urlNoPad (headerJSON A) ++ lit "." ++ b64urlNoPad j ++ lit "." ++
          b64urlNoPad (hmacSum alg S (b64urlNoPad (headerJSON A) ++ lit "." ++ b64urlNoPad j)))
          none := by
  obtain ⟨alg, halg⟩ := algorithms_isSome A hA
  refine ⟨alg, halg, ?_⟩
  rw [Encode_eq marshal P S A alg j halg hm, marshal_header A hA, filter_eq_b64urlNoPad,
    filter_eq_b64urlNoPad, filter_eq_b64urlNoPad, lit_dot]
  simp [joinDot]

/-- C9 at the payload `true`, the secret `"s3cret"` and `"HS512"`. -/
theorem C9_wire_format_witness :
    marshalBool true = some (lit "true") ∧
    ∃ alg, algorithms (lit "HS512") = some alg ∧
      Encode marshalBool true (lit "s3cret") (lit "HS512") =
        .ret (b64urlNoPad (headerJSON (lit "HS512")) ++ lit "." ++ b64urlNoPad (lit "true") ++
          lit "." ++ b64urlNoPad (hmacSum alg (lit "s3cret")
            (b64urlNoPad (headerJSON (lit "HS512")) ++ lit "." ++ b64urlNoPad (lit "true"))))
          none :=
  ⟨by decide,
    C9_wire_format marshalBool true (lit "s3cret") (lit "HS512") (lit "true") (Or.inr rfl)
      (by decide)⟩

/-- C10. For every payload that `json.Marshal` serializes and every secret, the
token of `Encode(payload, secret, "HS256")` is `h.p.g` with three parts free of
dots, the first of which is `eyJhbGciOiJIUzI1NiIsInR5cCI6IkpXVCJ9`, the unpadded
URL-safe base64 encoding of the bytes `{"alg":"HS256","typ":"JWT"}`; for
`"HS512"` the first part is `eyJhbGciOiJIUzUxMiIsInR5cCI6IkpXVCJ9`, the encoding
of `{"alg":"HS512","typ":"JWT"}`.  The first part is the same for every payload
and secret. -/
theorem C10_header_segment {π : Type} (marshal : π → Option Bytes) (P : π) (S j : Bytes)
    (hm : marshal P = some j) :
    (∃ p g, dot ∉ p ∧ dot ∉ g ∧
        Encode marshal P S (lit "HS256") =
          .ret (joinDot (joinDot (lit "eyJhbGciOiJIUzI1NiIsInR5cCI6IkpXVCJ9") p) g) none ∧
        stringsSplit (joinDot (joinDot (lit "eyJhbGciOiJIUzI1NiIsInR5cCI6IkpXVCJ9") p) g)
          (lit ".") = [lit "eyJhbGciOiJIUzI1NiIsInR5cCI6IkpXVCJ9", p, g]) ∧
      (∃ p g, dot ∉ p ∧ dot ∉ g ∧
        Encode marshal P S (lit "HS512") =
          .ret (joinDot (joinDot (lit "eyJhbGciOiJIUzUxMiIsInR5cCI6IkpXVCJ9") p) g) none ∧
        stringsSplit (joinDot (joinDot (lit "eyJhbGciOiJIUzUxMiIsInR5cCI6IkpXVCJ9") p) g)
          (lit ".") = [lit "eyJhbGciOiJIUzUxMiIsInR5cCI6IkpXVCJ9", p, g]) ∧
      b64urlNoPad (lit "\x7b\"alg\":\"HS256\",\"typ\":\"JWT\"\x7d") =
        lit "eyJhbGciOiJIUzI1NiIsInR5cCI6IkpXVCJ9" ∧
      b64urlNoPad (lit "\x7b\"alg\":\"HS512\",\"typ\":\"JWT\"\x7d") =
        lit "eyJhbGciOiJIUzUxMiIsInR5cCI6IkpXVCJ9" := by
  have d1 : dot ∉ lit "eyJhbGciOiJIUzI1NiIsInR5cCI6IkpXVCJ9" := by decide
  have d2 : dot ∉ lit "eyJhbGciOiJIUzUxMiIsInR5cCI6IkpXVCJ9" := by decide
  refine ⟨⟨(encodeToString j).filter (fun x => x ≠ eqSign),
      (encodeToString (hmacSum HS256 S (joinDot (lit "eyJhbGciOiJIUzI1NiIsInR5cCI6IkpXVCJ9")
        ((encodeToString j).filter (fun x => x ≠ eqSign))))).filter (fun x => x ≠ eqSign),
      dot_not_mem_segment j, dot_not_mem_segment _, ?_, ?_⟩,
    ⟨(encodeToString j).filter (fun x => x ≠ eqSign),
      (encodeToString (hmacSum HS512 S (joinDot (lit "eyJhbGciOiJIUzUxMiIsInR5cCI6IkpXVCJ9")
        ((encodeToString j).filter (fun x => x ≠ eqSign))))).filter (fun x => x ≠ eqSign),
      dot_not_mem_segment j, dot_not_mem_segment _, ?_, ?_⟩, by decide!, by decide!⟩
  · rw [Encode_eq marshal P S (lit "HS256") HS256 j algorithms_HS256 hm, header_segment_HS256]
  · simpa [joinDot] using stringsSplit_dot_three _ _ _ d1 (dot_not_mem_segment j)
      (dot_not_mem_segment (hmacSum HS256 S (joinDot (lit "eyJhbGciOiJIUzI1NiIsInR5cCI6IkpXVCJ9")
        ((encodeToString j).filter (fun x => x ≠ eqSign)))))
  · rw [Encode_eq marshal P S (lit "HS512") HS512 j algorithms_HS512 hm, header_segment_HS512]
  · simpa [joinDot] using stringsSplit_dot_three _ _ _ d2 (dot_not_mem_segment j)
      (dot_not_mem_segment (hmacSum HS512 S (joinDot (lit "eyJhbGciOiJIUzUxMiIsInR5cCI6IkpXVCJ9")
        ((encodeToString j).filter (fun x => x ≠ eqSign)))))

/-- C10 at the payload `true` and the secret `"s3cret"`. -/
theorem C10_header_segment_witness :
    marshalBool true = some (lit "true") ∧
    (∃ p g, dot ∉ p ∧ dot ∉ g ∧
        Encode marshalBool true (lit "s3cret") (lit "HS256") =
          .ret (joinDot (joinDot (lit "eyJhbGciOiJIUzI1NiIsInR5cCI6IkpXVCJ9") p) g) none ∧
        stringsSplit (joinDot (joinDot (lit "eyJhbGciOiJIUzI1NiIsInR5cCI6IkpXVCJ9") p) g)
          (lit ".") = [lit "eyJhbGciOiJIUzI1NiIsInR5cCI6IkpXVCJ9", p, g]) ∧
      (∃ p g, dot ∉ p ∧ dot ∉ g ∧
        Encode marshalBool true (lit "s3cret") (lit "HS512") =
          .ret (joinDot (joinDot (lit "eyJhbGciOiJIUzUxMiIsInR5cCI6IkpXVCJ9") p) g) none ∧
        stringsSplit (joinDot (joinDot (lit "eyJhbGciOiJIUzUxMiIsInR5cCI6IkpXVCJ9") p) g)
          (lit ".") = [lit "eyJhbGciOiJIUzUxMiIsInR5cCI6IkpXVCJ9", p, g]) ∧
      b64urlNoPad (lit "\x7b\"alg\":\"HS256\",\"typ\":\"JWT\"\x7d") =
        lit "eyJhbGciOiJIUzI1NiIsInR5cCI6IkpXVCJ9" ∧
      b64urlNoPad (lit "\x7b\"alg\":\"HS512\",\"typ\":\"JWT\"\x7d") =
        lit "eyJhbGciOiJIUzUxMiIsInR5cCI6IkpXVCJ9" :=
  ⟨by decide, C10_header_segment marshalBool true (lit "s3cret") (lit "true") (by decide)⟩

/-! ## The shape of tokens -/

theorem urlSafeChar_of_b64Char : ∀ c : Byte, B64Char c → URLSafeChar c := by decide!

theorem segment_ne_nil (b : Bytes) (hb : b ≠ []) :
    (encodeToString b).filter (fun x => x ≠ eqSign) ≠ [] := by
  intro h
  have hl := segment_length b
  rw [h] at hl
  have : 0 < b.length := List.length_pos.mpr hb
  simp only [List.length_nil] at hl
  omega

theorem hmacSum_ne_nil (A : Bytes) (alg : Hash) (halg : algorithms A = some alg)
    (key msg : Bytes) : hmacSum alg key msg ≠ [] := by
  intro h
  have hl := congrArg List.length h
  rcases algorithms_eq_some A alg halg with ⟨_, e⟩ | ⟨_, e⟩
  · rw [e, hmacSum_HS256_length] at hl
    simp at hl
  · rw [e, hmacSum_HS512_length] at hl
    simp at hl

theorem mem_joinDot (a b : Bytes) (c : Byte) : c ∈ joinDot a b ↔ c ∈ a ∨ c = dot ∨ c ∈ b := by
  simp [joinDot]

/-- C11. For a payload that `json.Marshal` serializes to a JSON text `j` (which
is never empty), every secret and an algorithm among `"HS256"` and `"HS512"`,
`Encode` returns a nil error and a token `h.p.g` that is not empty, holds
exactly two dots and no `=`, and whose three segments are not empty and hold
characters of the URL-safe base64 alphabet only. -/
theorem C11_three_segments {π : Type} (marshal : π → Option Bytes) (P : π) (S A j : Bytes)
    (hA : A = lit "HS256" ∨ A = lit "HS512") (hm : marshal P = some j) (hj : j ≠ []) :
    ∃ h p g, Encode marshal P S A = .ret (joinDot (joinDot h p) g) none ∧
      joinDot (joinDot h p) g ≠ [] ∧
      stringsCount (joinDot (joinDot h p) g) (lit ".") = 2 ∧
      eqSign ∉ joinDot (joinDot h p) g ∧
      stringsSplit (joinDot (joinDot h p) g) (lit ".") = [h, p, g] ∧
      h ≠ [] ∧ p ≠ [] ∧ g ≠ [] ∧
      (∀ c ∈ h, URLSafeChar c) ∧ (∀ c ∈ p, URLSafeChar c) ∧ (∀ c ∈ g, URLSafeChar c) := by
  obtain ⟨alg, halg⟩ := algorithms_isSome A hA
  have hde : eqSign ≠ dot := by decide
  refine ⟨_, _, _, Encode_eq marshal P S A alg j halg hm, ?_, ?_, ?_, ?_,
    header_segment_ne_nil A hA, segment_ne_nil j hj,
    segment_ne_nil _ (hmacSum_ne_nil A alg halg _ _),
    fun c hc => urlSafeChar_of_b64Char c (filter_encodeToString_chars _ c hc),
    fun c hc => urlSafeChar_of_b64Char c (filter_encodeToString_chars _ c hc),
    fun c hc => urlSafeChar_of_b64Char c (filter_encodeToString_chars _ c hc)⟩
  · simp [joinDot]
  · rw [stringsCount_dot, count_joinDot, count_joinDot,
      List.count_eq_zero.mpr (dot_not_mem_segment _),
      List.count_eq_zero.mpr (dot_not_mem_segment _),
      List.count_eq_zero.mpr (dot_not_mem_segment _)]
  · intro hmem
    rw [mem_joinDot, mem_joinDot] at hmem
    rcases hmem with (h | h | h) | h | h
    · exact eqSign_not_mem_of_b64 _ (filter_encodeToString_chars _) h
    · exact hde h
    · exact eqSign_not_mem_of_b64 _ (filter_encodeToString_chars _) h
    · exact hde h
    · exact eqSign_not_mem_of_b64 _ (filter_encodeToString_chars _) h
  · simpa [joinDot] using stringsSplit_dot_three _ _ _ (dot_not_mem_segment
      (marshalStringMap [(lit "typ", tokenType), (lit "alg", A)])) (dot_not_mem_segment j)
      (dot_not_mem_segment (hmacSum alg S (joinDot
        ((encodeToString (marshalStringMap
          [(lit "typ", tokenType), (lit "alg", A)])).filter (fun x => x ≠ eqSign))
        ((encodeToString j).filter (fun x => x ≠ eqSign)))))

/-- C11 at the payload `true`, the secret `"s3cret"` and `"HS256"`. -/
theorem C11_three_segments_witness :
    marshalBool true = some (lit "true") ∧ lit "true" ≠ [] ∧
    ∃ h p g, Encode marshalBool true (lit "s3cret") (lit "HS256") =
        .ret (joinDot (joinDot h p) g) none ∧
      joinDot (joinDot h p) g ≠ [] ∧
      stringsCount (joinDot (joinDot h p) g) (lit ".") = 2 ∧
      eqSign ∉ joinDot (joinDot h p) g ∧
      stringsSplit (joinDot (joinDot h p) g) (lit ".") = [h, p, g] ∧
      h ≠ [] ∧ p ≠ [] ∧ g ≠ [] ∧
      (∀ c ∈ h, URLSafeChar c) ∧ (∀ c ∈ p, URLSafeChar c) ∧ (∀ c ∈ g, URLSafeChar c) :=
  ⟨by decide, by decide,
    C11_three_segments marshalBool true (lit "s3cret") (lit "HS256") (lit "true") (Or.inl rfl)
      (by decide) (by decide)⟩

/-- C12. For every token that is empty or whose number of dots is not two,
`Decode` returns the error "Empty or missing parts" for every secret; no
segment is decoded: the result is the same for every `json.Unmarshal` and the
caller's payload is left as it was. -/
theorem C12_dot_count {τ : Type} (unmarshal : Bytes → τ → τ × Bool) (token secret : Bytes)
    (out : τ) (h : token = [] ∨ stringsCount token (lit ".") ≠ 2) :
    Decode unmarshal token secret out = (some .emptyOrMissingParts, out) := by
  unfold Decode
  rw [if_pos h]

/-- C12 at the empty token and at tokens with no, one and three dots. -/
theorem C12_dot_count_witness :
    Decode unmarshalBool [] (lit "s3cret") false = (some .emptyOrMissingParts, false) ∧
      Decode unmarshalBool (lit "abc") (lit "s3cret") false =
        (some .emptyOrMissingParts, false) ∧
      Decode unmarshalBool (lit "a.b") (lit "s3cret") false =
        (some .emptyOrMissingParts, false) ∧
      Decode unmarshalBool (lit "a.b.c.d") (lit "s3cret") false =
        (some .emptyOrMissingParts, false) :=
  ⟨C12_dot_count unmarshalBool [] _ false (Or.inl rfl),
    C12_dot_count unmarshalBool (lit "abc") _ false (Or.inr (by decide)),
    C12_dot_count unmarshalBool (lit "a.b") _ false (Or.inr (by decide)),
    C12_dot_count unmarshalBool (lit "a.b.c.d") _ false (Or.inr (by decide))⟩

theorem decodeString_addPlus_nil : decodeString (addPlusSignsToBase64 []) = some [] := by
  decide

/-- C13. For every token of the form `.p.s`, `h..s` or `h.p.`, `Decode` returns
an error that is not nil, for every secret (`json.Unmarshal` returning an error
on the empty input, as it does on every input that is not a JSON text). -/
theorem C13_empty_segment {τ : Type} (unmarshal : Bytes → τ → τ × Bool)
    (h p s secret : Bytes) (out : τ) (hu : (unmarshal [] out).2 = false) :
    (Decode unmarshal (joinDot (joinDot [] p) s) secret out).1 ≠ none ∧
      (Decode unmarshal (joinDot (joinDot h []) s) secret out).1 ≠ none ∧
      (Decode unmarshal (joinDot (joinDot h p) []) secret out).1 ≠ none := by
  refine ⟨?_, ?_, ?_⟩
  · intro hnil
    by_cases hc : (joinDot (joinDot [] p) s).count dot = 2
    · obtain ⟨_, hp, hs⟩ := not_mem_of_count_three [] p s hc
      rw [Decode_three_nil unmarshal p s secret out hp hs] at hnil
      simp at hnil
    · rw [Decode_of_count_ne unmarshal _ secret out hc] at hnil
      simp at hnil
  · intro hnil
    by_cases hc : (joinDot (joinDot h []) s).count dot = 2
    · obtain ⟨hh, hp, hs⟩ := not_mem_of_count_three h [] s hc
      by_cases hne : h = []
      · subst hne
        rw [Decode_three_nil unmarshal [] s secret out hp hs] at hnil
        simp at hnil
      · rw [Decode_three unmarshal h [] s secret out hh hp hs hne, decodeSegments_nil_iff] at hnil
        obtain ⟨_, _, pd, _, _, _, _, e3, e4, _⟩ := hnil
        rw [decodeString_addPlus_nil] at e3
        rw [← Option.some.inj e3, hu] at e4
        simp at e4
    · rw [Decode_of_count_ne unmarshal _ secret out hc] at hnil
      simp at hnil
  · intro hnil
    by_cases hc : (joinDot (joinDot h p) []).count dot = 2
    · obtain ⟨hh, hp, hs⟩ := not_mem_of_count_three h p [] hc
      by_cases hne : h = []
      · subst hne
        rw [Decode_three_nil unmarshal p [] secret out hp hs] at hnil
        simp at hnil
      · rw [Decode_three unmarshal h p [] secret out hh hp hs hne, decodeSegments_nil_iff] at hnil
        obtain ⟨_, m, _, sig, alg, _, _, _, _, e5, e6, e7⟩ := hnil
        rw [decodeString_addPlus_nil] at e5
        rw [← Option.some.inj e5] at e7
        exact hmacSum_ne_nil _ alg e6 _ _ e7.symm
    · rw [Decode_of_count_ne unmarshal _ secret out hc] at hnil
      simp at hnil

/-- C13 at the three tokens of the tests for `"HS256"`, cut short. -/
theorem C13_empty_segment_witness :
    (unmarshalBool [] false).2 = false ∧
    (Decode unmarshalBool (joinDot (joinDot [] (lit "dHJ1ZQ")) (lit "JH3K9upbznHSw7WB0zcw"))
        (lit "this is my secret") false).1 ≠ none ∧
      (Decode unmarshalBool (joinDot (joinDot (lit "eyJhbGciOiJIUzI1NiIsInR5cCI6IkpXVCJ9") [])
        (lit "JH3K9upbznHSw7WB0zcw")) (lit "this is my secret") false).1 ≠ none ∧
      (Decode unmarshalBool (joinDot (joinDot (lit "eyJhbGciOiJIUzI1NiIsInR5cCI6IkpXVCJ9")
        (lit "dHJ1ZQ")) []) (lit "this is my secret") false).1 ≠ none :=
  ⟨by decide,
    C13_empty_segment unmarshalBool (lit "eyJhbGciOiJIUzI1NiIsInR5cCI6IkpXVCJ9") (lit "dHJ1ZQ")
      (lit "JH3K9upbznHSw7WB0zcw") (lit "this is my secret") false (by decide)⟩

/-- C14, the claim refuted: for a payload that `json.Marshal` cannot serialize,
`Encode` under `"HS256"` returns nothing; `log.Fatalln` ends the process. -/
theorem C14_counterexample :
    marshalChan () = none ∧ Encode marshalChan () (lit "s3cret") (lit "HS256") = .fatal := by
  decide

/-- C14, amended. For every payload that `json.Marshal` cannot serialize, with
any secret and an algorithm among `"HS256"` and `"HS512"`, `Encode` returns
neither a token nor an error to the caller: `log.Fatalln` logs the error of
`json.Marshal` and ends the process. -/
theorem C14_serialization_failure_fatal {π : Type} (marshal : π → Option Bytes) (P : π)
    (S A : Bytes) (hA : A = lit "HS256" ∨ A = lit "HS512") (hm : marshal P = none) :
    Encode marshal P S A = .fatal ∧ ∀ token err, Encode marshal P S A ≠ .ret token err := by
  obtain ⟨alg, halg⟩ := algorithms_isSome A hA
  have h : Encode marshal P S A = .fatal := by simp [Encode, halg, hm]
  refine ⟨h, fun token err e => ?_⟩
  rw [h] at e
  cases e

/-- C14, amended, at a channel as payload, the secret `"s3cret"` and `"HS512"`. -/
theorem C14_serialization_failure_fatal_witness :
    marshalChan () = none ∧ Encode marshalChan () (lit "s3cret") (lit "HS512") = .fatal ∧
      ∀ token err, Encode marshalChan () (lit "s3cret") (lit "HS512") ≠ .ret token err :=
  ⟨rfl, C14_serialization_failure_fatal marshalChan () (lit "s3cret") (lit "HS512") (Or.inr rfl)
    rfl⟩

/-- C15. For every byte string `b`, the unpadded encoding
`strings.ReplaceAll(base64.URLEncoding.EncodeToString(b), "=", "")`, padded again by
`addPlusSignsToBase64`, is exactly `base64.URLEncoding.EncodeToString(b)`, and
decoding it succeeds and yields `b`. -/
theorem C15_padding_round_trip (b : Bytes) :
    decodeString (addPlusSignsToBase64 (stringsReplaceAll (encodeToString b) (lit "=") [])) =
        some b ∧
      addPlusSignsToBase64 (stringsReplaceAll (encodeToString b) (lit "=") []) =
        encodeToString b := by
  rw [stringsReplaceAll_eqSign, addPlus_filter_encodeToString]
  exact ⟨decodeString_encodeToString b, rfl⟩

/-- C17, the code at a failing input: the token `.p.s` holds exactly two dots,
and `rSplit(".p.s", ".", 1)` returns `["p", "s"]`, not `[".p", "s"]`: the text
before the last dot has lost its leading dot. -/
theorem C17_rSplit_leading_dot :
    stringsCount (lit ".p.s") (lit ".") = 2 ∧
      rSplit (lit ".p.s") (lit ".") 1 = [lit "p", lit "s"] ∧
      rSplit (lit ".p.s") (lit ".") 1 ≠ [lit ".p", lit "s"] := by
  decide

/-- C18. For every string `d`, `addPlusSignsToBase64(d)` is `d` followed by
exactly `(4 - len(d) mod 4) mod 4` characters `=`; its length is a multiple of
four, `d` is a prefix of it, and it is `d` when the length of `d` is a
multiple of four. -/
theorem C18_padding_deficit (d : Bytes) :
    addPlusSignsToBase64 d = d ++ List.replicate ((4 - d.length % 4) % 4) eqSign ∧
      (addPlusSignsToBase64 d).length % 4 = 0 ∧
      d <+: addPlusSignsToBase64 d ∧
      (d.length % 4 = 0 → addPlusSignsToBase64 d = d) := by
  have h := addPlus_eq_append d
  refine ⟨h, ?_, ?_, ?_⟩
  · rw [h, List.length_append, List.length_replicate]
    omega
  · rw [h]
    exact List.prefix_append _ _
  · intro h0
    rw [h, h0]
    simp

theorem decodeSegments_ne_missingParts {τ : Type} (unmarshal : Bytes → τ → τ × Bool)
    (si h p s secret : Bytes) (out : τ) :
    (decodeSegments unmarshal si h p s secret out).1 ≠ some .missingParts := by
  unfold decodeSegments
  cases h1 : decodeString (addPlusSignsToBase64 h) with
  | none => simp
  | some hd =>
    simp only []
    cases h2 : unmarshalStringMap hd with
    | none => simp
    | some m =>
      simp only []
      cases h3 : decodeString (addPlusSignsToBase64 p) with
      | none => simp
      | some pd =>
        simp only []
        cases h4 : (unmarshal pd out).2 with
        | false => simp
        | true =>
          simp only [Bool.not_true, Bool.false_eq_true, if_false]
          cases h5 : decodeString (addPlusSignsToBase64 s) with
          | none => simp
          | some sig =>
            rcases verifySignature_cases si sig (m.get (lit "alg")) secret with h | h | h <;>
              simp [h]

/-- C19. For every string with exactly two dots, `rSplit(s, ".", 1)` returns a
list of exactly two elements; `Decode` on such a token never returns the error
"Missing parts" of the check `len(parts) != 2` behind the call of `rSplit`. -/
theorem C19_missing_parts_dead {τ : Type} (unmarshal : Bytes → τ → τ × Bool)
    (s secret : Bytes) (out : τ) (h : stringsCount s (lit ".") = 2) :
    (rSplit s (lit ".") 1).length = 2 ∧
      (Decode unmarshal s secret out).1 ≠ some .missingParts := by
  rw [stringsCount_dot] at h
  obtain ⟨a, b, c, ht, ha, hb, hc⟩ := exists_three_of_count_two s h
  constructor
  · rw [ht, rSplit_three a b c ha hb hc]
    rfl
  · have ht2 : s = joinDot (joinDot a b) c := by
      simp [joinDot, ht]
    by_cases hne : a = []
    · subst hne
      rw [ht2, Decode_three_nil unmarshal b c secret out hb hc]
      simp
    · rw [ht2, Decode_three unmarshal a b c secret out ha hb hc hne]
      exact decodeSegments_ne_missingParts unmarshal _ a b c secret out

/-- C19 at the tokens `h.p.s` and `.p.s`. -/
theorem C19_missing_parts_dead_witness :
    stringsCount (lit "h.p.s") (lit ".") = 2 ∧
      ((rSplit (lit "h.p.s") (lit ".") 1).length = 2 ∧
        (Decode unmarshalBool (lit "h.p.s") (lit "s3cret") false).1 ≠ some .missingParts) ∧
      ((rSplit (lit ".p.s") (lit ".") 1).length = 2 ∧
        (Decode unmarshalBool (lit ".p.s") (lit "s3cret") false).1 ≠ some .missingParts) :=
  ⟨by decide, C19_missing_parts_dead unmarshalBool (lit "h.p.s") (lit "s3cret") false (by decide),
    C19_missing_parts_dead unmarshalBool (lit ".p.s") (lit "s3cret") false (by decide)⟩

end GoJwt
